import Mathlib

/-!
Verification development for the backpropagation teaching engine
(scalar computation-graph autodiff + matrix pipeline).

The definitions below are a shallow embedding of the TypeScript sources
`ExecutionEngine.ts` (ExecutionEngine, ComputationNode variants,
ComputationGraph), `Matrix.ts` and `Loss.ts`.  JavaScript numbers are
modelled by `ℚ`; the two opaque numeric-to-text helpers (`Math.exp`
inside the sigmoid, and `Number.toFixed(3)` used by the equation
renderers) are deterministic pure functions of their argument in the
source, so they are abstracted as parameters of a `Ctx` record: every
theorem holds for all instantiations, in particular the JavaScript ones.
-/

namespace Backprop

/-- Context of opaque numeric helpers: `sig` plays the role of
`x ↦ 1/(1+Math.exp(-x))` and `fmt` the role of `v.toFixed(3)` string
rendering.  Both are fixed deterministic functions in the source. -/
structure Ctx where
  sig : ℚ → ℚ
  fmt : ℚ → String

/-- Node type tag, mirroring `NodeType` in `ExecutionEngine.ts`
(the tags actually constructed by node classes). -/
inductive NodeOp where
  | input
  | param
  | multiply
  | add
  | sigmoid
  | relu
  | square
  | subtract
  | max
deriving DecidableEq, Repr

/-- One computation node (`ComputationNode` and its subclasses):
`id`, type tag, scalar `value`, scalar `gradient`, list of input
references (by id: the graph owns the nodes, cf. §3 of the design),
the `MaxNode.maxIndex` cache and the `isActive` flag.  Cosmetic
layout coordinates are omitted: the computation never reads them. -/
structure Node where
  id : String
  op : NodeOp
  name : String
  value : ℚ := 0
  gradient : ℚ := 0
  inputs : List String := []
  maxIndex : Nat := 0
  isActive : Bool := false
deriving DecidableEq, Repr

/-- The computation graph: node arena (insertion order), derived
execution order (node ids) and the designated output node. -/
structure Graph where
  nodes : List Node := []
  executionOrder : List String := []
  outputNode : Option String := none
deriving DecidableEq, Repr

/-- Lookup a node by id (first match, mirroring the id-keyed `Map`). -/
def Graph.find (g : Graph) (i : String) : Option Node :=
  g.nodes.find? (fun n => n.id = i)

/-- Replace the first node carrying the given id (in-place mutation of
the node object owned by the graph). -/
def replaceNode : List Node → Node → List Node
  | [], _ => []
  | m :: ms, n => if m.id = n.id then n :: ms else m :: replaceNode ms n

/-- Write back a mutated node into the arena. -/
def Graph.updNode (g : Graph) (n : Node) : Graph :=
  { g with nodes := replaceNode g.nodes n }

/-- Value of the node with the given id (0 if absent; the sources only
ever read values of nodes owned by the graph). -/
def valueOf (g : Graph) (i : String) : ℚ :=
  ((g.find i).map Node.value).getD 0

/-- Gradient of the node with the given id. -/
def gradOf (g : Graph) (i : String) : ℚ :=
  ((g.find i).map Node.gradient).getD 0

/-- Display name of the node with the given id. -/
def nameOf (g : Graph) (i : String) : String :=
  ((g.find i).map Node.name).getD ""

/-- Input list of the node with the given id. -/
def inputsOf (g : Graph) (i : String) : List String :=
  ((g.find i).map Node.inputs).getD []

/-- Value of the k-th input of a node. -/
def inVal (g : Graph) (n : Node) (k : Nat) : ℚ :=
  valueOf g (n.inputs.getD k "")

/-- Forward computation of a single node (`forward()` of each
`ComputationNode` subclass): returns the new `value` and the new
`maxIndex` (only `MaxNode.forward` writes the latter). -/
def computeVal (C : Ctx) (g : Graph) (n : Node) : ℚ × Nat :=
  match n.op with
  | .input => (n.value, n.maxIndex)
  | .param => (n.value, n.maxIndex)
  | .multiply => (inVal g n 0 * inVal g n 1, n.maxIndex)
  | .add => (inVal g n 0 + inVal g n 1, n.maxIndex)
  | .subtract => (inVal g n 0 - inVal g n 1, n.maxIndex)
  | .square => (inVal g n 0 ^ 2, n.maxIndex)
  | .sigmoid => (C.sig (inVal g n 0), n.maxIndex)
  | .relu => (max 0 (inVal g n 0), n.maxIndex)
  | .max =>
      if inVal g n 0 > inVal g n 1 then (inVal g n 0, 0) else (inVal g n 1, 1)

/-- Execute `node.forward()` for the node with the given id. -/
def Graph.stepNode (C : Ctx) (g : Graph) (i : String) : Graph :=
  match g.find i with
  | none => g
  | some n =>
      let vm := computeVal C g n
      g.updNode { n with value := vm.1, maxIndex := vm.2 }

/-- Run every node of the execution order (`ComputationGraph.forward`). -/
def Graph.forwardPass (C : Ctx) (g : Graph) : Graph :=
  g.executionOrder.foldl (fun h i => Graph.stepNode C h i) g

/-- Output value returned by `ComputationGraph.forward` (0 when no
output node is set). -/
def Graph.forwardOut (C : Ctx) (g : Graph) : ℚ :=
  match g.outputNode with
  | some o => valueOf (Graph.forwardPass C g) o
  | none => 0

/-- Zero every node's gradient and active flag
(`ComputationGraph.reset`); values are untouched. -/
def Graph.resetG (g : Graph) : Graph :=
  { g with nodes := g.nodes.map (fun n => { n with gradient := 0, isActive := false }) }

/-- Recursive backward propagation (`node.backward(upstream)`), with a
fuel bound standing in for the JavaScript call stack: on a DAG the
recursion depth never exceeds the number of nodes, so running with
that much fuel is exactly the source behaviour. -/
def backwardStep : Nat → Graph → String → ℚ → Graph
  | 0, g, _, _ => g
  | fuel + 1, g, i, u =>
    match g.find i with
    | none => g
    | some n =>
      let g1 := g.updNode { n with gradient := u }
      let i0 := n.inputs.getD 0 ""
      let i1 := n.inputs.getD 1 ""
      match n.op with
      | .input => g1
      | .param => g1
      | .multiply =>
          let ga := valueOf g1 i1 * u
          let gb := valueOf g1 i0 * u
          backwardStep fuel (backwardStep fuel g1 i0 ga) i1 gb
      | .add => backwardStep fuel (backwardStep fuel g1 i0 u) i1 u
      | .subtract => backwardStep fuel (backwardStep fuel g1 i0 u) i1 (-u)
      | .square => backwardStep fuel g1 i0 (2 * valueOf g1 i0 * u)
      | .sigmoid => backwardStep fuel g1 i0 (n.value * (1 - n.value) * u)
      | .relu =>
          backwardStep fuel g1 i0 ((if 0 < valueOf g1 i0 then (1 : ℚ) else 0) * u)
      | .max =>
          if n.maxIndex = 0 then
            backwardStep fuel (backwardStep fuel g1 i0 u) i1 0
          else
            backwardStep fuel (backwardStep fuel g1 i0 0) i1 u

/-- Whole-graph backward pass (`ComputationGraph.backward`): seeds the
output node with upstream gradient 1.0. -/
def Graph.backwardPass (g : Graph) : Graph :=
  match g.outputNode with
  | none => g
  | some o => backwardStep (g.nodes.length + 1) g o 1

/-- `addNode`: register a node in the arena (overwriting an existing
entry with the same id, like `Map.set`). -/
def Graph.addNode (g : Graph) (n : Node) : Graph :=
  if (g.find n.id).isSome then g.updNode n
  else { g with nodes := g.nodes ++ [n] }

/-- Post-order depth-first traversal with a visited set
(`computeExecutionOrder`).  The state is `(visited, order)`; the fuel
bound stands in for the JavaScript call stack and is irrelevant on
acyclic graphs once it exceeds the longest input chain. -/
def dfs (g : Graph) : Nat → String → List String × List String →
    List String × List String
  | 0, _, st => st
  | fuel + 1, i, st =>
    if i ∈ st.1 then st
    else
      let st2 := (inputsOf g i).foldl (fun s j => dfs g fuel j s) (i :: st.1, st.2)
      (st2.1, st2.2 ++ [i])

/-- Visiting a list of children in order with shared state (the fold
inside `dfs`, given a name for the proofs below). -/
def dfsList (g : Graph) (fuel : Nat) (js : List String)
    (st : List String × List String) : List String × List String :=
  js.foldl (fun s j => dfs g fuel j s) st

/-- Derived execution order, rebuilt from the output node. -/
def Graph.computeExecutionOrder (g : Graph) (root : String) : List String :=
  (dfs g (g.nodes.length + 1) root ([], [])).2

/-- `setOutput`: designate the output node and recompute the order. -/
def Graph.setOutput (g : Graph) (i : String) : Graph :=
  { g with outputNode := some i, executionOrder := Graph.computeExecutionOrder g i }

/-! ## Matrix layer (`Matrix.ts`) -/

/-- Dense 2-D numeric container (`Matrix.ts`): declared `rows`/`cols`
and row-major `data`.  The constructor path that accepts caller data is
`matrixNew` below; this structure is also built directly by the
operations, which always produce rectangular data. -/
structure Matrix where
  rows : Nat
  cols : Nat
  data : List (List ℚ)
deriving DecidableEq, Repr

/-- Element access `this.data[i][j]` (out-of-range reads never happen
in the source paths modelled here; the default 0 keeps it total). -/
def Matrix.entry (m : Matrix) (i j : Nat) : ℚ :=
  (m.data.getD i []).getD j 0

/-- Shape rendering `${r}x${c}` used by every dimension error. -/
def shapeStr (r c : Nat) : String :=
  toString r ++ "x" ++ toString c

/-- Substring containment (the error messages are required to contain
both operand shapes). -/
def strContains (big small : String) : Prop :=
  ∃ u v, big = u ++ small ++ v

/-- `Matrix.zeros`. -/
def Matrix.zeros (r c : Nat) : Matrix :=
  ⟨r, c, List.replicate r (List.replicate c 0)⟩

/-- `Matrix.prototype.multiply`: inner-dimension check, then the triple
loop `Σₖ this.data[i][k] * other.data[k][j]`. -/
def Matrix.multiply (a b : Matrix) : Except String Matrix :=
  if a.cols ≠ b.rows then
    .error ("Cannot multiply " ++ shapeStr a.rows a.cols ++ " with " ++
      shapeStr b.rows b.cols)
  else
    .ok ⟨a.rows, b.cols,
      (List.range a.rows).map (fun i =>
        (List.range b.cols).map (fun j =>
          ((List.range a.cols).map (fun k => a.entry i k * b.entry k j)).sum))⟩

/-- `Matrix.prototype.hadamard`: equal-shape check, then the
elementwise product. -/
def Matrix.hadamard (a b : Matrix) : Except String Matrix :=
  if a.rows ≠ b.rows ∨ a.cols ≠ b.cols then
    .error ("Cannot element-wise multiply " ++ shapeStr a.rows a.cols ++
      " with " ++ shapeStr b.rows b.cols)
  else
    .ok ⟨a.rows, a.cols,
      (List.range a.rows).map (fun i =>
        (List.range a.cols).map (fun j => a.entry i j * b.entry i j))⟩

/-- `Matrix.prototype.add` with a Matrix argument. -/
def Matrix.addM (a b : Matrix) : Except String Matrix :=
  if a.rows ≠ b.rows ∨ a.cols ≠ b.cols then
    .error ("Cannot add " ++ shapeStr a.rows a.cols ++ " with " ++
      shapeStr b.rows b.cols)
  else
    .ok ⟨a.rows, a.cols,
      (List.range a.rows).map (fun i =>
        (List.range a.cols).map (fun j => a.entry i j + b.entry i j))⟩

/-- `Matrix.prototype.scale`. -/
def Matrix.scale (a : Matrix) (s : ℚ) : Matrix :=
  ⟨a.rows, a.cols,
    (List.range a.rows).map (fun i =>
      (List.range a.cols).map (fun j => a.entry i j * s))⟩

/-- `Matrix.prototype.subtract` with a Matrix argument: the source
delegates to `this.add(other.scale(-1))`. -/
def Matrix.subtractM (a b : Matrix) : Except String Matrix :=
  a.addM (b.scale (-1))

/-- The `Matrix` constructor branch taking explicit `data`
(`Matrix.ts` lines 11–24).  An empty `data` array crashes in the
source with a TypeError while reading `data[0].length` (both when
building the mismatch message and when evaluating the guard), so it is
an error case here as well.  On success the caller's array is stored
as-is — no copy, and rows after the first are never inspected. -/
def matrixNew (rows cols : Nat) (data : List (List ℚ)) : Except String Matrix :=
  match data with
  | [] => .error "TypeError: cannot read length of undefined"
  | r0 :: _ =>
    if data.length ≠ rows ∨ r0.length ≠ cols then
      .error ("Data dimensions " ++ shapeStr data.length r0.length ++
        " don\x27t match " ++ shapeStr rows cols)
    else .ok ⟨rows, cols, data⟩

/-! ## Loss layer (`Loss.ts`, provided as an unnamed source file) -/

/-- Straight-line sequencing of fallible matrix computations: a thrown
dimension error propagates, mirroring an uncaught JS exception. -/
def okThen {α β : Type} (e : Except String α) (k : α → Except String β) :
    Except String β :=
  match e with
  | .error msg => .error msg
  | .ok x => k x

theorem okThen_ok {α β : Type} (x : α) (k : α → Except String β) :
    okThen (.ok x) k = k x := rfl

instance {ε α : Type} [DecidableEq ε] [DecidableEq α] : DecidableEq (Except ε α) :=
  fun x y =>
    match x, y with
    | .ok a, .ok b =>
        if h : a = b then isTrue (by rw [h])
        else isFalse (fun hc => h (Except.ok.inj hc))
    | .error a, .error b =>
        if h : a = b then isTrue (by rw [h])
        else isFalse (fun hc => h (Except.error.inj hc))
    | .ok _, .error _ => isFalse (fun hc => Except.noConfusion hc)
    | .error _, .ok _ => isFalse (fun hc => Except.noConfusion hc)

/-- `meanSquaredError.forward`: shape guard, then
`diff = predicted.subtract(target)`, `squaredDiff = diff.hadamard(diff)`
and `squaredDiff.toArray().reduce(+) / n` with `n = rows·cols`. -/
def meanSquaredErrorForward (predicted target : Matrix) : Except String ℚ :=
  if predicted.rows ≠ target.rows ∨ predicted.cols ≠ target.cols then
    .error "Predicted and target matrices must have the same shape"
  else
    okThen (predicted.subtractM target) fun diff =>
      okThen (diff.hadamard diff) fun sq =>
        .ok (sq.data.flatten.sum / ((predicted.rows * predicted.cols : Nat) : ℚ))

/-- `meanSquaredError.backward`: shape guard, then
`predicted.subtract(target).scale(2 / n)`. -/
def meanSquaredErrorBackward (predicted target : Matrix) : Except String Matrix :=
  if predicted.rows ≠ target.rows ∨ predicted.cols ≠ target.cols then
    .error "Predicted and target matrices must have the same shape"
  else
    okThen (predicted.subtractM target) fun diff =>
      .ok (diff.scale (2 / ((predicted.rows * predicted.cols : Nat) : ℚ)))

/-- Boolean success test for a fallible matrix computation. -/
def isOkE {α : Type} : Except String α → Bool
  | .ok _ => true
  | .error _ => false

/-- The throw condition of the explicit-data constructor exactly as the
claim states it: `data.length ≠ rows` or the first row's length differs
from `cols` (formalized with the empty first row standing in for a
missing one). -/
def ctorThrowsClaim (rows cols : Nat) (data : List (List ℚ)) : Prop :=
  data.length ≠ rows ∨ (data.headD []).length ≠ cols

/-! ## Supporting lemmas for the matrix layer -/

theorem entry_mk (r c : Nat) (f : Nat → Nat → ℚ) {i j : Nat} (hi : i < r) (hj : j < c) :
    (Matrix.mk r c ((List.range r).map (fun i => (List.range c).map (fun j => f i j)))).entry i j
      = f i j := by
  simp [Matrix.entry, List.getD, List.getElem?_map, List.getElem?_range, hi, hj]

theorem sum_data_mk (r c : Nat) (f : Nat → Nat → ℚ) :
    ((List.range r).map (fun i => (List.range c).map (fun j => f i j))).flatten.sum
      = ∑ i in Finset.range r, ∑ j in Finset.range c, f i j := by
  rw [List.sum_flatten, List.map_map]
  rfl

theorem subtractM_ok (a b : Matrix) (hr : a.rows = b.rows) (hc : a.cols = b.cols) :
    a.subtractM b = .ok ⟨a.rows, a.cols,
      (List.range a.rows).map (fun i =>
        (List.range a.cols).map (fun j => a.entry i j + (b.scale (-1)).entry i j))⟩ := by
  simp [Matrix.subtractM, Matrix.addM, Matrix.scale, hr, hc]

theorem scale_entry (b : Matrix) (s : ℚ) {i j : Nat} (hi : i < b.rows) (hj : j < b.cols) :
    (b.scale s).entry i j = b.entry i j * s :=
  entry_mk b.rows b.cols (fun i j => b.entry i j * s) hi hj

/-! ## Claim C7 -/

/-- C7: for every pair of equal-shaped matrices, MSE forward returns
the mean of the elementwise squared differences and MSE backward
returns `(2/n)·(predicted − target)` with `n` the total element
count. -/
theorem claim7_mse_formulas (p t : Matrix) (hr : p.rows = t.rows) (hc : p.cols = t.cols) :
    meanSquaredErrorForward p t =
      .ok ((∑ i in Finset.range p.rows, ∑ j in Finset.range p.cols,
        (p.entry i j - t.entry i j) ^ 2) / ((p.rows * p.cols : Nat) : ℚ)) ∧
    ∃ m, meanSquaredErrorBackward p t = .ok m ∧ m.rows = p.rows ∧ m.cols = p.cols ∧
      ∀ i < p.rows, ∀ j < p.cols,
        m.entry i j = 2 / ((p.rows * p.cols : Nat) : ℚ) * (p.entry i j - t.entry i j) := by
  have hsub := subtractM_ok p t hr hc
  constructor
  · rw [meanSquaredErrorForward, if_neg (by simp [hr, hc]), hsub, okThen_ok,
      Matrix.hadamard, if_neg (by simp), okThen_ok, sum_data_mk]
    congr 1
    refine congrArg (· / _) ?_
    refine Finset.sum_congr rfl (fun i hi => Finset.sum_congr rfl (fun j hj => ?_))
    rw [Finset.mem_range] at hi hj
    rw [entry_mk _ _ _ hi hj, scale_entry t (-1) (hr ▸ hi) (hc ▸ hj)]
    ring
  · refine ⟨(Matrix.mk p.rows p.cols
      ((List.range p.rows).map (fun i => (List.range p.cols).map
        (fun j => p.entry i j + (t.scale (-1)).entry i j)))).scale
          (2 / ((p.rows * p.cols : Nat) : ℚ)), ?_, rfl, rfl, ?_⟩
    · rw [meanSquaredErrorBackward, if_neg (by simp [hr, hc]), hsub, okThen_ok]
    · intro i hi j hj
      rw [Matrix.scale, entry_mk _ _ _ hi hj, entry_mk _ _ _ hi hj,
        scale_entry t (-1) (hr ▸ hi) (hc ▸ hj)]
      ring

/-- C7 witness: the spec's concrete scenario, `predicted = [0.7,0.2,0.1]`
(column vector) against one-hot `target = [1,0,0]`: the loss evaluates
to `((0.3)²+(0.2)²+(0.1)²)/3 = 7/150` and the gradient to
`(2/3)·[-0.3,0.2,0.1]`. -/
theorem claim7_witness :
    ((Matrix.mk 3 1 [[7/10], [2/10], [1/10]]).rows = (Matrix.mk 3 1 [[1], [0], [0]]).rows ∧
     (Matrix.mk 3 1 [[7/10], [2/10], [1/10]]).cols = (Matrix.mk 3 1 [[1], [0], [0]]).cols) ∧
    (meanSquaredErrorForward (Matrix.mk 3 1 [[7/10], [2/10], [1/10]])
        (Matrix.mk 3 1 [[1], [0], [0]]) =
      .ok ((∑ i in Finset.range 3, ∑ j in Finset.range 1,
        ((Matrix.mk 3 1 [[7/10], [2/10], [1/10]]).entry i j -
          (Matrix.mk 3 1 [[1], [0], [0]]).entry i j) ^ 2) / ((3 * 1 : Nat) : ℚ)) ∧
      ∃ m, meanSquaredErrorBackward (Matrix.mk 3 1 [[7/10], [2/10], [1/10]])
          (Matrix.mk 3 1 [[1], [0], [0]]) = .ok m ∧
        m.rows = 3 ∧ m.cols = 1 ∧
        ∀ i < 3, ∀ j < 1, m.entry i j = 2 / ((3 * 1 : Nat) : ℚ) *
          ((Matrix.mk 3 1 [[7/10], [2/10], [1/10]]).entry i j -
            (Matrix.mk 3 1 [[1], [0], [0]]).entry i j)) ∧
    meanSquaredErrorForward (Matrix.mk 3 1 [[7/10], [2/10], [1/10]])
      (Matrix.mk 3 1 [[1], [0], [0]]) = .ok (7/150) := by
  refine ⟨⟨rfl, rfl⟩,
    claim7_mse_formulas (Matrix.mk 3 1 [[7/10], [2/10], [1/10]])
      (Matrix.mk 3 1 [[1], [0], [0]]) rfl rfl, ?_⟩
  rw [(claim7_mse_formulas (Matrix.mk 3 1 [[7/10], [2/10], [1/10]])
      (Matrix.mk 3 1 [[1], [0], [0]]) rfl rfl).1]
  norm_num [Finset.sum_range_succ, Matrix.entry, Except.ok.injEq]

/-! ## Claim C8 -/

/-- C8: `multiply` errors exactly when the inner dimensions disagree,
`hadamard` and matrix `add` exactly when the shapes differ, and every
such error message contains both operand shapes. -/
theorem claim8_shape_errors (a b : Matrix) :
    ((∃ m, a.multiply b = .ok m) ↔ a.cols = b.rows) ∧
    ((∃ m, a.hadamard b = .ok m) ↔ (a.rows = b.rows ∧ a.cols = b.cols)) ∧
    ((∃ m, a.addM b = .ok m) ↔ (a.rows = b.rows ∧ a.cols = b.cols)) ∧
    ∀ msg, (a.multiply b = .error msg ∨ a.hadamard b = .error msg ∨
        a.addM b = .error msg) →
      strContains msg (shapeStr a.rows a.cols) ∧
      strContains msg (shapeStr b.rows b.cols) := by
  refine ⟨?_, ?_, ?_, ?_⟩
  · rw [Matrix.multiply]
    by_cases h : a.cols = b.rows
    · simp [h]
    · simp [h]
  · rw [Matrix.hadamard]
    by_cases h1 : a.rows = b.rows <;> by_cases h2 : a.cols = b.cols <;> simp [h1, h2]
  · rw [Matrix.addM]
    by_cases h1 : a.rows = b.rows <;> by_cases h2 : a.cols = b.cols <;> simp [h1, h2]
  · intro msg hmsg
    have key : ∀ pre mid, msg = pre ++ shapeStr a.rows a.cols ++ mid ++
        shapeStr b.rows b.cols →
        strContains msg (shapeStr a.rows a.cols) ∧
        strContains msg (shapeStr b.rows b.cols) := by
      intro pre mid h
      constructor
      · exact ⟨pre, mid ++ shapeStr b.rows b.cols, by rw [h]; simp [String.append_assoc]⟩
      · refine ⟨pre ++ shapeStr a.rows a.cols ++ mid, "", ?_⟩
        rw [h]
        simp [String.append_assoc]
    rcases hmsg with h | h | h
    · rw [Matrix.multiply] at h
      by_cases hc : a.cols = b.rows
      · rw [if_neg (by simpa using hc)] at h
        exact absurd h (by simp)
      · rw [if_pos hc] at h
        exact key _ _ (Except.error.inj h).symm
    · rw [Matrix.hadamard] at h
      by_cases hc : a.rows = b.rows ∧ a.cols = b.cols
      · rw [if_neg (by simp [hc.1, hc.2])] at h
        exact absurd h (by simp)
      · rw [if_pos (not_and_or.mp hc)] at h
        exact key _ _ (Except.error.inj h).symm
    · rw [Matrix.addM] at h
      by_cases hc : a.rows = b.rows ∧ a.cols = b.cols
      · rw [if_neg (by simp [hc.1, hc.2])] at h
        exact absurd h (by simp)
      · rw [if_pos (not_and_or.mp hc)] at h
        exact key _ _ (Except.error.inj h).symm

/-- C8 witness: on the spec's concrete shapes a 2×3 by 3×2 product
succeeds, and the 2×3 by 2×2 product fails with a message containing
both shapes. -/
theorem claim8_witness :
    (∃ m, (Matrix.mk 2 3 [[1,2,3],[4,5,6]]).multiply
      (Matrix.mk 3 2 [[7,8],[9,10],[11,12]]) = .ok m) ∧
    strContains "Cannot multiply 2x3 with 2x2" (shapeStr 2 3) ∧
    strContains "Cannot multiply 2x3 with 2x2" (shapeStr 2 2) := by
  refine ⟨(claim8_shape_errors (Matrix.mk 2 3 [[1,2,3],[4,5,6]])
      (Matrix.mk 3 2 [[7,8],[9,10],[11,12]])).1.mpr rfl, ?_⟩
  exact (claim8_shape_errors (Matrix.mk 2 3 [[1,2,3],[4,5,6]])
      (Matrix.mk 2 2 [[1,0],[0,1]])).2.2.2 _ (Or.inl (by decide))

/-! ## Claim C9 -/

/-- C9 counterexample: with `rows = 0`, `cols = 0` and `data = []` the
claim's condition (`data.length ≠ rows` or first-row length ≠ `cols`)
does not hold, yet the constructor still throws — in the source,
reading `data[0].length` of the empty array raises a TypeError.  So
"throws exactly when ..." is false as stated. -/
theorem claim9_counterexample :
    ¬ ctorThrowsClaim 0 0 [] ∧ isOkE (matrixNew 0 0 []) = false := by
  constructor
  · intro h
    rcases h with h | h <;> simp [ctorThrowsClaim] at h
  · rfl

/-- C9 (amended): the explicit-data constructor throws exactly when
`data` is empty, `data.length ≠ rows`, or the first row's length is
not `cols`; rows after the first are never checked, and an accepted
array is stored as-is (no copy — ragged rows survive verbatim). -/
theorem claim9_ctor_amended (rows cols : Nat) (data : List (List ℚ)) :
    (isOkE (matrixNew rows cols data) = true ↔
      (data ≠ [] ∧ data.length = rows ∧ (data.headD []).length = cols)) ∧
    ∀ m, matrixNew rows cols data = .ok m →
      m.rows = rows ∧ m.cols = cols ∧ m.data = data := by
  cases data with
  | nil =>
    refine ⟨by simp [matrixNew, isOkE], fun m hm => ?_⟩
    simp [matrixNew] at hm
  | cons r0 rest =>
    by_cases hc : (r0 :: rest).length = rows ∧ r0.length = cols
    · have hok : matrixNew rows cols (r0 :: rest) = .ok ⟨rows, cols, r0 :: rest⟩ := by
        rw [matrixNew, if_neg (by simp [hc.1, hc.2])]
      refine ⟨by simp [hok, isOkE, hc.1, hc.2], fun m hm => ?_⟩
      rw [hok] at hm
      rw [← Except.ok.inj hm]
      exact ⟨rfl, rfl, rfl⟩
    · have herr : matrixNew rows cols (r0 :: rest) =
          .error ("Data dimensions " ++ shapeStr (r0 :: rest).length r0.length ++
            " don\x27t match " ++ shapeStr rows cols) := by
        rw [matrixNew, if_pos (not_and_or.mp hc)]
      refine ⟨by simp [herr, isOkE]; simpa [not_and_or] using hc, fun m hm => ?_⟩
      rw [herr] at hm
      exact absurd hm (by simp)

/-- C9 witness: a ragged array whose first row has the declared width
is accepted, stored unchanged. -/
theorem claim9_witness :
    (isOkE (matrixNew 2 2 [[1,2],[(5:ℚ)]]) = true) ∧
    ∀ m, matrixNew 2 2 [[1,2],[(5:ℚ)]] = .ok m →
      m.rows = 2 ∧ m.cols = 2 ∧ m.data = [[1,2],[(5:ℚ)]] :=
  ⟨(claim9_ctor_amended 2 2 [[1,2],[(5:ℚ)]]).1.mpr (by decide),
   fun m hm => (claim9_ctor_amended 2 2 [[1,2],[(5:ℚ)]]).2 m hm⟩

/-! ## Arena lookup/update lemmas -/

theorem find_id {g : Graph} {i : String} {n : Node} (h : g.find i = some n) :
    n.id = i := by
  have := List.find?_some h
  exact of_decide_eq_true this

theorem replaceNode_find? (l : List Node) (n : Node) (j : String) :
    (replaceNode l n).find? (fun m => m.id = j) =
      if j = n.id then (l.find? (fun m => m.id = j)).map (fun _ => n)
      else l.find? (fun m => m.id = j) := by
  induction l with
  | nil => simp [replaceNode]
  | cons m ms ih =>
    rw [replaceNode]
    by_cases hm : m.id = n.id
    · rw [if_pos hm]
      by_cases hj : j = n.id
      · have hmj : m.id = j := by rw [hm, hj]
        rw [if_pos hj, List.find?_cons_of_pos _ (by simp [hj]),
          List.find?_cons_of_pos _ (by simp [hmj])]
        rfl
      · have hmj : ¬ m.id = j := fun hc => hj (by rw [← hc, hm])
        have hnj : ¬ n.id = j := fun hc => hj hc.symm
        rw [if_neg hj, List.find?_cons_of_neg _ (by simpa using hnj),
          List.find?_cons_of_neg _ (by simpa using hmj)]
    · rw [if_neg hm]
      by_cases hmj : m.id = j
      · have hj : ¬ j = n.id := fun hc => hm (by rw [hmj, hc])
        rw [if_neg hj, List.find?_cons_of_pos _ (by simp [hmj]),
          List.find?_cons_of_pos _ (by simp [hmj])]
      · rw [List.find?_cons_of_neg _ (by simpa using hmj),
          List.find?_cons_of_neg _ (by simpa using hmj), ih]

theorem find_updNode (g : Graph) (n : Node) (j : String) :
    (g.updNode n).find j =
      if j = n.id then (g.find j).map (fun _ => n) else g.find j := by
  rw [Graph.updNode, Graph.find, Graph.find]
  exact replaceNode_find? g.nodes n j

theorem find_updNode_ne (g : Graph) (n : Node) {j : String} (h : j ≠ n.id) :
    (g.updNode n).find j = g.find j := by
  rw [find_updNode, if_neg h]

theorem find_updNode_self (g : Graph) (n : Node) {j : String}
    (h : ∃ m, g.find j = some m) (hid : n.id = j) :
    (g.updNode n).find j = some n := by
  rcases h with ⟨m, hm⟩
  rw [find_updNode, if_pos hid.symm, hm]
  rfl

theorem gradOf_updNode_self (g : Graph) (n : Node)
    (h : ∃ m, g.find n.id = some m) :
    gradOf (g.updNode n) n.id = n.gradient := by
  rw [gradOf, find_updNode_self g n h rfl]
  rfl

/-- Leaf backward (`InputNode.backward` / `ParameterNode.backward`):
a single assignment of the incoming upstream gradient. -/
theorem backwardStep_leaf (fuel : Nat) (g : Graph) (i : String) (u : ℚ) (n : Node)
    (hfind : g.find i = some n) (hop : n.op = .input ∨ n.op = .param) :
    backwardStep (fuel + 1) g i u = g.updNode { n with gradient := u } := by
  rw [backwardStep, hfind]
  rcases hop with hop | hop <;> simp only [hop]

theorem stepNode_some (C : Ctx) (g : Graph) (i : String) (n : Node)
    (hfind : g.find i = some n) :
    Graph.stepNode C g i =
      g.updNode { n with value := (computeVal C g n).1
                         maxIndex := (computeVal C g n).2 } := by
  rw [Graph.stepNode, hfind]

theorem computeVal_max (C : Ctx) (g : Graph) (n : Node) (hop : n.op = .max) :
    computeVal C g n =
      if inVal g n 0 > inVal g n 1 then (inVal g n 0, 0) else (inVal g n 1, 1) := by
  rw [computeVal, hop]

theorem backwardStep_max (fuel : Nat) (g : Graph) (i : String) (u : ℚ) (n : Node)
    (hfind : g.find i = some n) (hop : n.op = .max) :
    backwardStep (fuel + 1) g i u =
      if n.maxIndex = 0 then
        backwardStep fuel
          (backwardStep fuel (g.updNode { n with gradient := u })
            (n.inputs.getD 0 "") u) (n.inputs.getD 1 "") 0
      else
        backwardStep fuel
          (backwardStep fuel (g.updNode { n with gradient := u })
            (n.inputs.getD 0 "") 0) (n.inputs.getD 1 "") u := by
  rw [backwardStep, hfind]
  simp only [hop]

/-! ## Claim C3 -/

/-- C3 (amended): for a Max node over distinct leaf inputs `a` and `b`,
forward computes `max(a,b)` and records the winner, **with ties broken
toward the second operand** (`val1 > val2` picks the first, everything
else — including equality — picks the second); backward then routes
the full upstream gradient to the recorded winner and exactly 0 to the
other input. -/
theorem claim3_max_amended (C : Ctx) (g : Graph) (i a b : String) (n na nb : Node)
    (u : ℚ)
    (hfind : g.find i = some n) (hop : n.op = .max) (hin : n.inputs = [a, b])
    (hia : i ≠ a) (hib : i ≠ b) (hab : a ≠ b)
    (hfa : g.find a = some na) (hfb : g.find b = some nb)
    (hla : na.op = .input ∨ na.op = .param)
    (hlb : nb.op = .input ∨ nb.op = .param) :
    valueOf (Graph.stepNode C g i) i = max (valueOf g a) (valueOf g b) ∧
    (∀ n', (Graph.stepNode C g i).find i = some n' →
        n'.maxIndex = if valueOf g b < valueOf g a then 0 else 1) ∧
    (valueOf g b < valueOf g a →
      gradOf (backwardStep 2 (Graph.stepNode C g i) i u) a = u ∧
      gradOf (backwardStep 2 (Graph.stepNode C g i) i u) b = 0) ∧
    (¬ valueOf g b < valueOf g a →
      gradOf (backwardStep 2 (Graph.stepNode C g i) i u) a = 0 ∧
      gradOf (backwardStep 2 (Graph.stepNode C g i) i u) b = u) := by
  have hid : n.id = i := find_id hfind
  have hnaid : na.id = a := find_id hfa
  have hnbid : nb.id = b := find_id hfb
  have hin0 : inVal g n 0 = valueOf g a := by rw [inVal, hin]; rfl
  have hin1 : inVal g n 1 = valueOf g b := by rw [inVal, hin]; rfl
  set nF : Node := { n with value := max (valueOf g a) (valueOf g b)
                            maxIndex := if valueOf g b < valueOf g a then 0 else 1 }
    with hnFdef
  have hnFid : nF.id = i := by rw [hnFdef]; exact hid
  have hnFop : nF.op = NodeOp.max := by rw [hnFdef]; exact hop
  have hnFin : nF.inputs = [a, b] := by rw [hnFdef]; exact hin
  have hnFval : nF.value = max (valueOf g a) (valueOf g b) := by rw [hnFdef]
  have hnFmax : nF.maxIndex = if valueOf g b < valueOf g a then 0 else 1 := by
    rw [hnFdef]
  have hstep : Graph.stepNode C g i = g.updNode nF := by
    rw [stepNode_some C g i n hfind, computeVal_max C g n hop, hin0, hin1, hnFdef]
    by_cases hcmp : valueOf g b < valueOf g a
    · rw [if_pos hcmp]
      simp [hcmp, max_eq_left hcmp.le]
    · rw [if_neg hcmp]
      simp [hcmp, max_eq_right (not_lt.mp hcmp)]
  have hfind1 : (Graph.stepNode C g i).find i = some nF := by
    rw [hstep]
    exact find_updNode_self _ _ ⟨n, hfind⟩ hnFid
  have hane : ∀ m : Node, m.id = i → (a : String) ≠ m.id := by
    intro m hm hc
    exact hia (by rw [← hm]; exact hc.symm)
  have hbne : ∀ m : Node, m.id = i → (b : String) ≠ m.id := by
    intro m hm hc
    exact hib (by rw [← hm]; exact hc.symm)
  have run : ∀ (x y : ℚ) (m : Node), m.id = i → ∀ h0 : Graph,
      h0.find a = some na → h0.find b = some nb →
      gradOf (backwardStep 1 (backwardStep 1
        (h0.updNode m) a x) b y) a = x ∧
      gradOf (backwardStep 1 (backwardStep 1
        (h0.updNode m) a x) b y) b = y := by
    intro x y m hmid h0 h0a h0b
    have hg2a : (h0.updNode m).find a = some na := by
      rw [find_updNode_ne h0 m (hane m hmid)]
      exact h0a
    have hg2b : (h0.updNode m).find b = some nb := by
      rw [find_updNode_ne h0 m (hbne m hmid)]
      exact h0b
    have hbna : (b : String) ≠ ({ na with gradient := x } : Node).id :=
      fun hc => hab (hc.trans hnaid).symm
    have hanb : (a : String) ≠ ({ nb with gradient := y } : Node).id :=
      fun hc => hab (hc.trans hnbid)
    rw [backwardStep_leaf 0 _ a x na hg2a hla]
    have hg3b : ((h0.updNode m).updNode
        { na with gradient := x }).find b = some nb := by
      rw [find_updNode_ne _ { na with gradient := x } hbna]
      exact hg2b
    rw [backwardStep_leaf 0 _ b y nb hg3b hlb]
    have hbid : ({ nb with gradient := y } : Node).id = b := hnbid
    constructor
    · rw [gradOf, find_updNode_ne _ { nb with gradient := y } hanb,
        find_updNode_self _ { na with gradient := x } ⟨na, hg2a⟩ hnaid]
      rfl
    · rw [← hbid]
      refine gradOf_updNode_self _ { nb with gradient := y } ⟨nb, ?_⟩
      rw [hbid]
      exact hg3b
  have hg1a : (Graph.stepNode C g i).find a = some na := by
    rw [hstep, find_updNode_ne g nF (hane nF hnFid)]
    exact hfa
  have hg1b : (Graph.stepNode C g i).find b = some nb := by
    rw [hstep, find_updNode_ne g nF (hbne nF hnFid)]
    exact hfb
  refine ⟨?_, ?_, ?_, ?_⟩
  · rw [valueOf, hfind1]
    show nF.value = max (valueOf g a) (valueOf g b)
    exact hnFval
  · intro n' hn'
    rw [hfind1] at hn'
    rw [← Option.some.inj hn']
  · intro hcmp
    rw [backwardStep_max 1 _ i u nF hfind1 hnFop, hnFmax, if_pos hcmp, if_pos rfl,
      hnFin, show ([a, b].getD 0 "") = a from rfl,
      show ([a, b].getD 1 "") = b from rfl]
    refine run u 0 _ ?_ _ hg1a hg1b
    exact hnFid
  · intro hcmp
    rw [backwardStep_max 1 _ i u nF hfind1 hnFop, hnFmax, if_neg hcmp,
      if_neg (by omega), hnFin, show ([a, b].getD 0 "") = a from rfl,
      show ([a, b].getD 1 "") = b from rfl]
    refine run 0 u _ ?_ _ hg1a hg1b
    exact hnFid

/-- Concrete context instance used by closed counterexamples and
witnesses (the claims under test never depend on the choice). -/
def ctx0 : Ctx := ⟨fun x => x, fun _ => ""⟩

/-- Two equal inputs feeding one Max node (a tie). -/
def tieG : Graph :=
  { nodes := [{ id := "a", op := .input, name := "a", value := 2 },
              { id := "b", op := .input, name := "b", value := 2 },
              { id := "m", op := .max, name := "m", inputs := ["a", "b"] }],
    executionOrder := ["a", "b", "m"], outputNode := some "m" }

/-- C3 counterexample: on the tie `a = b = 2`, `MaxNode.forward` takes
the `else` branch of `val1 > val2`, records the **second** operand as
the winner, and backward therefore routes the full upstream gradient 1
to `b` and 0 to `a` — the claim says ties break toward the first
operand `a`. -/
theorem claim3_counterexample :
    gradOf (backwardStep 2 (Graph.stepNode ctx0 tieG "m") "m" 1) "a" = 0 ∧
    gradOf (backwardStep 2 (Graph.stepNode ctx0 tieG "m") "m" 1) "b" = 1 ∧
    valueOf (Graph.stepNode ctx0 tieG "m") "m" = 2 := by
  refine ⟨by decide, by decide, by decide⟩

/-- The spec's concrete Max scenario: z = 2 beats w = −1. -/
def maxG : Graph :=
  { nodes := [{ id := "z", op := .input, name := "z", value := 2 },
              { id := "w", op := .input, name := "w", value := -1 },
              { id := "m", op := .max, name := "m", inputs := ["z", "w"] }],
    executionOrder := ["z", "w", "m"], outputNode := some "m" }

/-- C3 witness: the amended Max theorem applied to the concrete graph
`max(z, w)` with `z = 2`, `w = −1` and upstream gradient 1. -/
theorem claim3_witness :
    (maxG.find "m" = some { id := "m", op := .max, name := "m", inputs := ["z", "w"] } ∧
     maxG.find "z" = some { id := "z", op := .input, name := "z", value := 2 } ∧
     maxG.find "w" = some { id := "w", op := .input, name := "w", value := -1 }) ∧
    (valueOf (Graph.stepNode ctx0 maxG "m") "m" =
      max (valueOf maxG "z") (valueOf maxG "w") ∧
    (∀ n', (Graph.stepNode ctx0 maxG "m").find "m" = some n' →
        n'.maxIndex = if valueOf maxG "w" < valueOf maxG "z" then 0 else 1) ∧
    (valueOf maxG "w" < valueOf maxG "z" →
      gradOf (backwardStep 2 (Graph.stepNode ctx0 maxG "m") "m" 1) "z" = 1 ∧
      gradOf (backwardStep 2 (Graph.stepNode ctx0 maxG "m") "m" 1) "w" = 0) ∧
    (¬ valueOf maxG "w" < valueOf maxG "z" →
      gradOf (backwardStep 2 (Graph.stepNode ctx0 maxG "m") "m" 1) "z" = 0 ∧
      gradOf (backwardStep 2 (Graph.stepNode ctx0 maxG "m") "m" 1) "w" = 1)) :=
  ⟨⟨by decide, by decide, by decide⟩,
   claim3_max_amended ctx0 maxG "m" "z" "w"
     { id := "m", op := .max, name := "m", inputs := ["z", "w"] }
     { id := "z", op := .input, name := "z", value := 2 }
     { id := "w", op := .input, name := "w", value := -1 } 1
     (by decide) rfl rfl (by decide) (by decide) (by decide)
     (by decide) (by decide) (Or.inl rfl) (Or.inl rfl)⟩

/-! ## Claim C2 -/

/-- A shared-input graph: `out = x² + x²`, where the input `x` has two
distinct consumers `s1` and `s2`, built through `addNode`/`setOutput`
exactly as a caller would. -/
def diamond (x : ℚ) : Graph :=
  (((((Graph.mk [] [] none).addNode
      { id := "x", op := .input, name := "x", value := x }).addNode
      { id := "s1", op := .square, name := "s1", inputs := ["x"] }).addNode
      { id := "s2", op := .square, name := "s2", inputs := ["x"] }).addNode
      { id := "out", op := .add, name := "out", inputs := ["s1", "s2"] }).setOutput
      "out"

/-- C2 counterexample: in `out = x² + x²` with `x = 2`, each of the
two consumers contributes `2·x·1 = 4`, so the claimed sum is 8 — but
after `ComputationGraph.backward` the stored gradient of `x` is 4: the
second consumer's `backward` call overwrote the first's. -/
theorem claim2_counterexample :
    gradOf (Graph.backwardPass (Graph.forwardPass ctx0 (diamond 2))) "x" = 4 ∧
    2 * valueOf (Graph.forwardPass ctx0 (diamond 2)) "x" * 1 +
      2 * valueOf (Graph.forwardPass ctx0 (diamond 2)) "x" * 1 = 8 ∧
    (4 : ℚ) ≠ 8 := by
  refine ⟨?_, ?_, by norm_num⟩
  · have h : gradOf (Graph.backwardPass (Graph.forwardPass ctx0 (diamond 2))) "x"
        = 2 * 2 * 1 := rfl
    rw [h]
    norm_num
  · have h : valueOf (Graph.forwardPass ctx0 (diamond 2)) "x" = 2 := rfl
    rw [h]
    norm_num

/-- C2 (amended): the recursive `ComputationGraph.backward` does not
sum contributions of multiple consumers — every `backward(upstream)`
call on a leaf overwrites its gradient with that single call's
upstream, so a node with k ≥ 2 consumers ends up with only the
contribution of the consumer that propagates last.  In `out = x² + x²`
the final gradient of `x` is `2·x` (one consumer's contribution), not
the correct total `4·x`. -/
theorem claim2_overwrite (C : Ctx) (x : ℚ) :
    gradOf (Graph.backwardPass (Graph.forwardPass C (diamond x))) "x" = 2 * x ∧
    ∀ (fuel : Nat) (g : Graph) (i : String) (u : ℚ) (n : Node),
      g.find i = some n → (n.op = .input ∨ n.op = .param) →
      gradOf (backwardStep (fuel + 1) g i u) i = u := by
  constructor
  · have h0 : diamond x =
        { nodes := [{ id := "x", op := .input, name := "x", value := x },
                    { id := "s1", op := .square, name := "s1", inputs := ["x"] },
                    { id := "s2", op := .square, name := "s2", inputs := ["x"] },
                    { id := "out", op := .add, name := "out", inputs := ["s1", "s2"] }],
          executionOrder := ["x", "s1", "s2", "out"],
          outputNode := some "out" } := rfl
    have h1 : Graph.forwardPass C
        { nodes := [{ id := "x", op := .input, name := "x", value := x },
                    { id := "s1", op := .square, name := "s1", inputs := ["x"] },
                    { id := "s2", op := .square, name := "s2", inputs := ["x"] },
                    { id := "out", op := .add, name := "out", inputs := ["s1", "s2"] }],
          executionOrder := ["x", "s1", "s2", "out"],
          outputNode := some "out" } =
        { nodes := [{ id := "x", op := .input, name := "x", value := x },
                    { id := "s1", op := .square, name := "s1", value := x ^ 2, inputs := ["x"] },
                    { id := "s2", op := .square, name := "s2", value := x ^ 2, inputs := ["x"] },
                    { id := "out", op := .add, name := "out", value := x ^ 2 + x ^ 2, inputs := ["s1", "s2"] }],
          executionOrder := ["x", "s1", "s2", "out"],
          outputNode := some "out" } := rfl
    have h2 : Graph.backwardPass
        { nodes := [{ id := "x", op := .input, name := "x", value := x },
                    { id := "s1", op := .square, name := "s1", value := x ^ 2, inputs := ["x"] },
                    { id := "s2", op := .square, name := "s2", value := x ^ 2, inputs := ["x"] },
                    { id := "out", op := .add, name := "out", value := x ^ 2 + x ^ 2, inputs := ["s1", "s2"] }],
          executionOrder := ["x", "s1", "s2", "out"],
          outputNode := some "out" } =
        { nodes := [{ id := "x", op := .input, name := "x", value := x, gradient := 2 * x * 1 },
                    { id := "s1", op := .square, name := "s1", value := x ^ 2, gradient := 1, inputs := ["x"] },
                    { id := "s2", op := .square, name := "s2", value := x ^ 2, gradient := 1, inputs := ["x"] },
                    { id := "out", op := .add, name := "out", value := x ^ 2 + x ^ 2, gradient := 1, inputs := ["s1", "s2"] }],
          executionOrder := ["x", "s1", "s2", "out"],
          outputNode := some "out" } := rfl
    rw [h0, h1, h2]
    have h3 : gradOf
        { nodes := [{ id := "x", op := .input, name := "x", value := x, gradient := 2 * x * 1 },
                    { id := "s1", op := .square, name := "s1", value := x ^ 2, gradient := 1, inputs := ["x"] },
                    { id := "s2", op := .square, name := "s2", value := x ^ 2, gradient := 1, inputs := ["x"] },
                    { id := "out", op := .add, name := "out", value := x ^ 2 + x ^ 2, gradient := 1, inputs := ["s1", "s2"] }],
          executionOrder := ["x", "s1", "s2", "out"],
          outputNode := some "out" } "x" = 2 * x * 1 := rfl
    rw [h3]
    ring

  · intro fuel g i u n hfind hop
    rw [backwardStep_leaf fuel g i u n hfind hop, ← find_id hfind]
    refine gradOf_updNode_self g { n with gradient := u } ⟨n, ?_⟩
    rw [show ({ n with gradient := u } : Node).id = n.id from rfl, find_id hfind]
    exact hfind

/-- C2 witness: the amended theorem at `x = 5` (parametric diamond) and
a concrete leaf overwrite (`upstream = 7` lands verbatim in the
gradient field). -/
theorem claim2_witness :
    gradOf (Graph.backwardPass (Graph.forwardPass ctx0 (diamond 5))) "x" = 2 * 5 ∧
    gradOf (backwardStep 1 (diamond 5) "x" 7) "x" = 7 :=
  ⟨(claim2_overwrite ctx0 5).1,
   (claim2_overwrite ctx0 5).2 0 (diamond 5) "x" 7
     { id := "x", op := .input, name := "x", value := 5 }
     (by decide) (Or.inl rfl)⟩

/-! ## Topological order, arity and coherence -/

/-- The inputs of every entry of the list occur at strictly smaller
indices (the §3/§8 topological-order invariant of `executionOrder`). -/
def TopoList (g : Graph) (l : List String) : Prop :=
  ∀ k, k < l.length → ∀ j ∈ inputsOf g (l.getD k ""), ∃ m, m < k ∧ l.getD m "" = j

/-- A node references at least as many inputs as its operation reads
(the data-model invariant; in the source an arity violation would
dereference `undefined`). -/
def NodeArity (n : Node) : Prop :=
  match n.op with
  | .input => True
  | .param => True
  | .multiply => 2 ≤ n.inputs.length
  | .add => 2 ≤ n.inputs.length
  | .subtract => 2 ≤ n.inputs.length
  | .max => 2 ≤ n.inputs.length
  | .square => 1 ≤ n.inputs.length
  | .sigmoid => 1 ≤ n.inputs.length
  | .relu => 1 ≤ n.inputs.length

/-- Executable arity check for one id. -/
def ArityAt (g : Graph) (i : String) : Bool :=
  match g.find i with
  | none => true
  | some n =>
    match n.op with
    | .input => true
    | .param => true
    | .multiply => decide (2 ≤ n.inputs.length)
    | .add => decide (2 ≤ n.inputs.length)
    | .subtract => decide (2 ≤ n.inputs.length)
    | .max => decide (2 ≤ n.inputs.length)
    | .square => decide (1 ≤ n.inputs.length)
    | .sigmoid => decide (1 ≤ n.inputs.length)
    | .relu => decide (1 ≤ n.inputs.length)

theorem arityAt_spec {g : Graph} {i : String} (h : ArityAt g i = true)
    {n : Node} (hfind : g.find i = some n) : NodeArity n := by
  simp only [ArityAt, hfind] at h
  rw [NodeArity]
  cases hop : n.op <;> simp only [hop] at h ⊢ <;> simp_all

/-- The immutable part of a node (never written by forward, backward,
reset or the engine). -/
def nodeSkel (n : Node) : String × NodeOp × String × List String :=
  (n.id, n.op, n.name, n.inputs)

/-- A node's stored value and max-cache agree with recomputation in the
current state. -/
def CoherentAt (C : Ctx) (h : Graph) (i : String) : Prop :=
  ∀ n, h.find i = some n → computeVal C h n = (n.value, n.maxIndex)

/-- Every node of the execution order is coherent. -/
def Coherent (C : Ctx) (h : Graph) : Prop :=
  ∀ i ∈ h.executionOrder, CoherentAt C h i

theorem stepNode_order (C : Ctx) (g : Graph) (i : String) :
    (Graph.stepNode C g i).executionOrder = g.executionOrder := by
  rw [Graph.stepNode]
  cases g.find i <;> rfl

theorem stepNode_outputNode (C : Ctx) (g : Graph) (i : String) :
    (Graph.stepNode C g i).outputNode = g.outputNode := by
  rw [Graph.stepNode]
  cases g.find i <;> rfl

theorem stepNode_none (C : Ctx) (g : Graph) {i : String} (h : g.find i = none) :
    Graph.stepNode C g i = g := by
  rw [Graph.stepNode, h]

theorem stepNode_find_ne (C : Ctx) (g : Graph) {i j : String} (hne : j ≠ i) :
    (Graph.stepNode C g i).find j = g.find j := by
  cases hfind : g.find i with
  | none => rw [stepNode_none C g hfind]
  | some n =>
    rw [stepNode_some C g i n hfind]
    refine find_updNode_ne g _ (fun hc => hne ?_)
    rw [← find_id hfind]
    exact hc

theorem stepNode_skel (C : Ctx) (g : Graph) (i j : String) :
    ((Graph.stepNode C g i).find j).map nodeSkel = (g.find j).map nodeSkel := by
  by_cases hne : j = i
  · subst hne
    cases hfind : g.find j with
    | none =>
      rw [stepNode_none C g hfind, hfind]
    | some n =>
      have hex : ∃ m, g.find j = some m := ⟨n, hfind⟩
      have h2 : (g.updNode { n with value := (computeVal C g n).1
                                    maxIndex := (computeVal C g n).2 }).find j
          = some { n with value := (computeVal C g n).1
                          maxIndex := (computeVal C g n).2 } :=
        find_updNode_self g _ hex (show n.id = j from find_id hfind)
      rw [stepNode_some C g j n hfind, h2]
      rfl
  · rw [stepNode_find_ne C g hne]

theorem stepNode_valueOf_ne (C : Ctx) (g : Graph) {i j : String} (hne : j ≠ i) :
    valueOf (Graph.stepNode C g i) j = valueOf g j := by
  rw [valueOf, valueOf, stepNode_find_ne C g hne]

theorem replaceNode_self (l : List Node) (n : Node) (x : String) (hx : n.id = x)
    (h : l.find? (fun m => m.id = x) = some n) : replaceNode l n = l := by
  induction l with
  | nil => rfl
  | cons m ms ih =>
    by_cases hm : m.id = x
    · rw [List.find?_cons_of_pos _ (by simp [hm])] at h
      rw [replaceNode, if_pos (by rw [hx, hm]), Option.some.inj h]
    · rw [List.find?_cons_of_neg _ (by simpa using hm)] at h
      rw [replaceNode, if_neg (fun hc => hm (by rw [hc, hx])), ih h]

theorem stepNode_fix (C : Ctx) (h : Graph) (x : String) (hc : CoherentAt C h x) :
    Graph.stepNode C h x = h := by
  cases hfind : h.find x with
  | none => rw [stepNode_none C h hfind]
  | some n =>
    rw [stepNode_some C h x n hfind]
    have hval := hc n hfind
    show h.updNode { n with value := (computeVal C h n).1
                            maxIndex := (computeVal C h n).2 } = h
    rw [hval]
    show h.updNode n = h
    rw [Graph.updNode, replaceNode_self h.nodes n x (find_id hfind) hfind]

theorem foldl_stepNode_fix (C : Ctx) (h : Graph) (l : List String)
    (hl : ∀ x ∈ l, CoherentAt C h x) :
    List.foldl (fun a i => Graph.stepNode C a i) h l = h := by
  induction l with
  | nil => rfl
  | cons x xs ih =>
    rw [List.foldl_cons, stepNode_fix C h x (hl x (by simp))]
    exact ih (fun y hy => hl y (by simp [hy]))

theorem forwardPass_fix (C : Ctx) (h : Graph) (hc : Coherent C h) :
    Graph.forwardPass C h = h :=
  foldl_stepNode_fix C h h.executionOrder hc

theorem getD_mem_of_lt {l : List String} {k : Nat} (hkl : k < l.length) :
    l.getD k "" ∈ l := by
  have h1 : l.getD k "" = l.get ⟨k, hkl⟩ := by
    show (l.get? k).getD "" = _
    rw [List.get?_eq_get hkl]
    rfl
  rw [h1]
  exact List.get_mem l k hkl

theorem computeVal_congr (C : Ctx) {g g' : Graph} (n : Node)
    (hv : ∀ j ∈ n.inputs, valueOf g' j = valueOf g j)
    (ha : NodeArity n) : computeVal C g' n = computeVal C g n := by
  have hk : ∀ k, k < n.inputs.length → inVal g' n k = inVal g n k := by
    intro k hkl
    rw [inVal, inVal]
    exact hv _ (getD_mem_of_lt hkl)
  rw [NodeArity] at ha
  cases hop : n.op <;> simp only [hop] at ha <;> simp only [computeVal, hop]
  case multiply => rw [hk 0 (by omega), hk 1 (by omega)]
  case add => rw [hk 0 (by omega), hk 1 (by omega)]
  case subtract => rw [hk 0 (by omega), hk 1 (by omega)]
  case max => rw [hk 0 (by omega), hk 1 (by omega)]
  case square => rw [hk 0 (by omega)]
  case sigmoid => rw [hk 0 (by omega)]
  case relu => rw [hk 0 (by omega)]

theorem skel_some {g0 h : Graph} {i : String} {n : Node}
    (hs : ((h.find i).map nodeSkel) = ((g0.find i).map nodeSkel))
    (hn : h.find i = some n) :
    ∃ n0, g0.find i = some n0 ∧ nodeSkel n = nodeSkel n0 := by
  rw [hn] at hs
  cases hg : g0.find i with
  | none => rw [hg] at hs; cases hs
  | some n0 =>
    rw [hg] at hs
    exact ⟨n0, rfl, Option.some.inj hs⟩

theorem nodeArity_of_skel {n n0 : Node} (h : nodeSkel n = nodeSkel n0)
    (ha : NodeArity n0) : NodeArity n := by
  have hop : n.op = n0.op := congrArg (fun p => p.2.1) h
  have hin : n.inputs = n0.inputs := congrArg (fun p => p.2.2.2) h
  rw [NodeArity, hop, hin]
  rw [NodeArity] at ha
  exact ha

/-- Executing a node in a state whose input values it cannot change
makes it coherent. -/
theorem stepNode_coherentAt (C : Ctx) (h : Graph) (x : String)
    (hcond : ∀ n, h.find x = some n → NodeArity n ∧
      ∀ j ∈ n.inputs, valueOf (Graph.stepNode C h x) j = valueOf h j) :
    CoherentAt C (Graph.stepNode C h x) x := by
  intro n hn
  cases hfx : h.find x with
  | none =>
    rw [stepNode_none C h hfx] at hn
    rw [hfx] at hn
    cases hn
  | some nx =>
    obtain ⟨ha, hstab⟩ := hcond nx hfx
    have hex : ∃ m, h.find x = some m := ⟨nx, hfx⟩
    have h2 : (Graph.stepNode C h x).find x
        = some { nx with value := (computeVal C h nx).1
                         maxIndex := (computeVal C h nx).2 } := by
      rw [stepNode_some C h x nx hfx]
      exact find_updNode_self h _ hex (show nx.id = x from find_id hfx)
    rw [h2] at hn
    rw [← Option.some.inj hn]
    suffices hsuf : computeVal C (Graph.stepNode C h x)
        { nx with value := (computeVal C h nx).1
                  maxIndex := (computeVal C h nx).2 } = computeVal C h nx by
      rw [hsuf]
    rw [NodeArity] at ha
    cases hop : nx.op <;> simp only [hop] at ha <;>
      simp only [computeVal, hop] <;> try rfl
    case multiply =>
      have hm0 := hstab _ (getD_mem_of_lt (show 0 < nx.inputs.length by omega))
      have hm1 := hstab _ (getD_mem_of_lt (show 1 < nx.inputs.length by omega))
      show (valueOf (Graph.stepNode C h x) (nx.inputs.getD 0 "") *
            valueOf (Graph.stepNode C h x) (nx.inputs.getD 1 ""), nx.maxIndex) = _
      rw [hm0, hm1]
      rfl
    case add =>
      have hm0 := hstab _ (getD_mem_of_lt (show 0 < nx.inputs.length by omega))
      have hm1 := hstab _ (getD_mem_of_lt (show 1 < nx.inputs.length by omega))
      show (valueOf (Graph.stepNode C h x) (nx.inputs.getD 0 "") +
            valueOf (Graph.stepNode C h x) (nx.inputs.getD 1 ""), nx.maxIndex) = _
      rw [hm0, hm1]
      rfl
    case subtract =>
      have hm0 := hstab _ (getD_mem_of_lt (show 0 < nx.inputs.length by omega))
      have hm1 := hstab _ (getD_mem_of_lt (show 1 < nx.inputs.length by omega))
      show (valueOf (Graph.stepNode C h x) (nx.inputs.getD 0 "") -
            valueOf (Graph.stepNode C h x) (nx.inputs.getD 1 ""), nx.maxIndex) = _
      rw [hm0, hm1]
      rfl
    case max =>
      have hm0 := hstab _ (getD_mem_of_lt (show 0 < nx.inputs.length by omega))
      have hm1 := hstab _ (getD_mem_of_lt (show 1 < nx.inputs.length by omega))
      show (if valueOf (Graph.stepNode C h x) (nx.inputs.getD 0 "") >
              valueOf (Graph.stepNode C h x) (nx.inputs.getD 1 "") then
              (valueOf (Graph.stepNode C h x) (nx.inputs.getD 0 ""), 0)
            else (valueOf (Graph.stepNode C h x) (nx.inputs.getD 1 ""), 1)) = _
      rw [hm0, hm1]
      rfl
    case square =>
      have hm0 := hstab _ (getD_mem_of_lt (show 0 < nx.inputs.length by omega))
      show (valueOf (Graph.stepNode C h x) (nx.inputs.getD 0 "") ^ 2, nx.maxIndex) = _
      rw [hm0]
      rfl
    case sigmoid =>
      have hm0 := hstab _ (getD_mem_of_lt (show 0 < nx.inputs.length by omega))
      show (C.sig (valueOf (Graph.stepNode C h x) (nx.inputs.getD 0 "")), nx.maxIndex) = _
      rw [hm0]
      rfl
    case relu =>
      have hm0 := hstab _ (getD_mem_of_lt (show 0 < nx.inputs.length by omega))
      show (max 0 (valueOf (Graph.stepNode C h x) (nx.inputs.getD 0 "")), nx.maxIndex) = _
      rw [hm0]
      rfl

theorem getD_eq_get {l : List String} {k : Nat} (hkl : k < l.length) :
    l.getD k "" = l.get ⟨k, hkl⟩ := by
  show (l.get? k).getD "" = _
  rw [List.get?_eq_get hkl]
  rfl

theorem getD_append_lt (pre rest : List String) (m : Nat) (hm : m < pre.length) :
    (pre ++ rest).getD m "" = pre.getD m "" := by
  induction pre generalizing m with
  | nil => exact absurd hm (by simp)
  | cons a as ih =>
    cases m with
    | zero => rfl
    | succ k => exact ih k (by simpa using hm)

theorem getD_append_length (pre : List String) (x : String) (xs : List String) :
    (pre ++ x :: xs).getD pre.length "" = x := by
  induction pre with
  | nil => rfl
  | cons a as ih => exact ih

/-- Find-by-id commutes with any id-preserving per-node map
(`Array.prototype.map` over the arena). -/
theorem find?_map_id (l : List Node) (f : Node → Node)
    (hf : ∀ n, (f n).id = n.id) (i : String) :
    (l.map f).find? (fun n => n.id = i) = (l.find? (fun n => n.id = i)).map f := by
  induction l with
  | nil => rfl
  | cons a as ih =>
    by_cases h : a.id = i
    · rw [List.map_cons, List.find?_cons_of_pos _ (by simp [hf, h]),
          List.find?_cons_of_pos _ (by simp [h]), Option.map]
    · rw [List.map_cons, List.find?_cons_of_neg _ (by simp [hf, h]),
          List.find?_cons_of_neg _ (by simp [h]), ih]

theorem resetG_find (g : Graph) (i : String) :
    (Graph.resetG g).find i
      = (g.find i).map (fun n => { n with gradient := 0, isActive := false }) := by
  exact find?_map_id g.nodes
    (fun n => { n with gradient := 0, isActive := false }) (fun _ => rfl) i

/-- `reset` never changes a stored value. -/
theorem resetG_valueOf (g : Graph) (j : String) :
    valueOf (Graph.resetG g) j = valueOf g j := by
  rw [valueOf, valueOf, resetG_find]
  cases g.find j <;> rfl

theorem resetG_skel (g : Graph) (i : String) :
    ((Graph.resetG g).find i).map nodeSkel = (g.find i).map nodeSkel := by
  rw [resetG_find]
  cases g.find i <;> rfl

/-- `forward()` never reads gradients or active flags, so the per-node
recomputation ignores what `reset` clears. -/
theorem computeVal_resetNode (C : Ctx) (G : Graph) (n : Node) :
    computeVal C G { n with gradient := 0, isActive := false } = computeVal C G n := by
  rcases n with ⟨i, op, nm, v, gr, ins, mi, ac⟩
  cases op <;> rfl

theorem computeVal_congr_all (C : Ctx) {g g' : Graph} (n : Node)
    (hv : ∀ j, valueOf g' j = valueOf g j) :
    computeVal C g' n = computeVal C g n := by
  cases hop : n.op <;> simp only [computeVal, hop, inVal, hv]

/-- `reset` preserves coherence: it only clears fields `forward` never
reads. -/
theorem resetG_coherentAt (C : Ctx) (h : Graph) (i : String)
    (hc : CoherentAt C h i) : CoherentAt C (Graph.resetG h) i := by
  intro n hn
  rw [resetG_find] at hn
  cases hf : h.find i with
  | none => rw [hf] at hn; cases hn
  | some n0 =>
    rw [hf] at hn
    rw [← Option.some.inj hn]
    calc computeVal C (Graph.resetG h) { n0 with gradient := 0, isActive := false }
        = computeVal C (Graph.resetG h) n0 := computeVal_resetNode C _ n0
      _ = computeVal C h n0 := computeVal_congr_all C n0 (resetG_valueOf h)
      _ = (n0.value, n0.maxIndex) := hc n0 hf

theorem foldl_stepNode_order (C : Ctx) (l : List String) (h : Graph) :
    (l.foldl (fun a i => Graph.stepNode C a i) h).executionOrder
      = h.executionOrder := by
  induction l generalizing h with
  | nil => rfl
  | cons x xs ih => rw [List.foldl_cons, ih, stepNode_order]

theorem foldl_stepNode_outputNode (C : Ctx) (l : List String) (h : Graph) :
    (l.foldl (fun a i => Graph.stepNode C a i) h).outputNode = h.outputNode := by
  induction l generalizing h with
  | nil => rfl
  | cons x xs ih => rw [List.foldl_cons, ih, stepNode_outputNode]

/-- In a topological order, the inputs of an entry at position `k` all
occur inside the length-`k`-or-longer prefix `pre`. -/
theorem topo_inputs_in_prefix (g : Graph) (pre rest : List String)
    (hdec : g.executionOrder = pre ++ rest) (hT : TopoList g g.executionOrder)
    (k : Nat) (hk1 : k < g.executionOrder.length) (hk2 : k ≤ pre.length) :
    ∀ j ∈ inputsOf g (g.executionOrder.getD k ""), j ∈ pre := by
  intro j hj
  obtain ⟨m, hmk, hmj⟩ := hT k hk1 j hj
  have hmpre : m < pre.length := lt_of_lt_of_le hmk hk2
  have heq : g.executionOrder.getD m "" = pre.getD m "" := by
    rw [hdec]
    exact getD_append_lt pre rest m hmpre
  rw [heq] at hmj
  rw [← hmj]
  exact getD_mem_of_lt hmpre

/-- Core invariant of `ComputationGraph.forward`: folding `stepNode`
over a suffix of a duplicate-free topological execution order preserves
every node skeleton and leaves every already-processed node — and, at
the end, every node of the order — coherent. -/
theorem fold_coherent_aux (C : Ctx) (g : Graph)
    (hT : TopoList g g.executionOrder) (hN : g.executionOrder.Nodup)
    (hA : ∀ i ∈ g.executionOrder, ArityAt g i = true) :
    ∀ suf pre h, g.executionOrder = pre ++ suf →
      (∀ j, (h.find j).map nodeSkel = (g.find j).map nodeSkel) →
      (∀ i ∈ pre, CoherentAt C h i) →
      (∀ j, ((suf.foldl (fun a i => Graph.stepNode C a i) h).find j).map nodeSkel
          = (g.find j).map nodeSkel) ∧
      ∀ i ∈ pre ++ suf, CoherentAt C (suf.foldl (fun a i => Graph.stepNode C a i) h) i := by
  intro suf
  induction suf with
  | nil =>
    intro pre h hdec hskel hcoh
    exact ⟨hskel, by simpa using hcoh⟩
  | cons x xs ih =>
    intro pre h hdec hskel hcoh
    have hklen : pre.length < g.executionOrder.length := by
      rw [hdec]
      simp [List.length_append]
    have hx : g.executionOrder.getD pre.length "" = x := by
      rw [hdec]
      exact getD_append_length pre x xs
    have hN2 : (pre ++ x :: xs).Nodup := hdec ▸ hN
    have hxpre : x ∉ pre := fun hxm =>
      (List.disjoint_of_nodup_append hN2) hxm (List.mem_cons_self x xs)
    have hinpre : ∀ j ∈ inputsOf g x, j ∈ pre := by
      intro j hj
      refine topo_inputs_in_prefix g pre (x :: xs) hdec hT pre.length hklen le_rfl j ?_
      rw [hx]
      exact hj
    have hskel1 : ∀ j, ((Graph.stepNode C h x).find j).map nodeSkel
        = (g.find j).map nodeSkel :=
      fun j => (stepNode_skel C h x j).trans (hskel j)
    have hinputs_eq : ∀ {i : String} {n : Node}, h.find i = some n →
        ∀ n0, g.find i = some n0 → n.inputs = inputsOf g i := by
      intro i n hn n0 hg0
      obtain ⟨n1, hg1, hsk⟩ := skel_some (hskel i) hn
      rw [inputsOf, hg1]
      exact congrArg (fun p => p.2.2.2) hsk
    have hcoh1x : CoherentAt C (Graph.stepNode C h x) x := by
      refine stepNode_coherentAt C h x ?_
      intro n hn
      obtain ⟨n0, hg0, hsk⟩ := skel_some (hskel x) hn
      have hxmem : x ∈ g.executionOrder := by
        rw [hdec]
        simp
      refine ⟨nodeArity_of_skel hsk (arityAt_spec (hA x hxmem) hg0), ?_⟩
      intro j hj
      have hjin : j ∈ inputsOf g x := by
        rw [← hinputs_eq hn n0 hg0]
        exact hj
      have hjpre : j ∈ pre := hinpre j hjin
      have hjx : j ≠ x := fun he => hxpre (he ▸ hjpre)
      exact stepNode_valueOf_ne C h hjx
    have hcoh1pre : ∀ i ∈ pre, CoherentAt C (Graph.stepNode C h x) i := by
      intro i hi n hn
      have hix : i ≠ x := fun he => hxpre (he ▸ hi)
      have hfind : h.find i = some n := by
        rw [← stepNode_find_ne C h hix]
        exact hn
      obtain ⟨n0, hg0, hsk⟩ := skel_some (hskel i) hfind
      have himem : i ∈ g.executionOrder := by
        rw [hdec]
        exact List.mem_append_left _ hi
      have har : NodeArity n := nodeArity_of_skel hsk (arityAt_spec (hA i himem) hg0)
      obtain ⟨mi, hget⟩ := List.get_of_mem hi
      have hmi : mi.1 < pre.length := mi.2
      have hiL : g.executionOrder.getD mi.1 "" = i := by
        rw [hdec, getD_append_lt pre (x :: xs) mi.1 hmi, getD_eq_get hmi]
        exact hget
      have hstab : ∀ j ∈ n.inputs, valueOf (Graph.stepNode C h x) j = valueOf h j := by
        intro j hj
        have hjin : j ∈ inputsOf g i := by
          rw [← hinputs_eq hfind n0 hg0]
          exact hj
        have hjpre : j ∈ pre := by
          refine topo_inputs_in_prefix g pre (x :: xs) hdec hT mi.1
            (lt_of_lt_of_le hmi (le_of_lt hklen)) (le_of_lt hmi) j ?_
          rw [hiL]
          exact hjin
        have hjx : j ≠ x := fun he => hxpre (he ▸ hjpre)
        exact stepNode_valueOf_ne C h hjx
      rw [computeVal_congr C n hstab har]
      exact hcoh i hi n hfind
    have hcoh1 : ∀ i ∈ pre ++ [x], CoherentAt C (Graph.stepNode C h x) i := by
      intro i hi
      rcases List.mem_append.mp hi with hl | hr
      · exact hcoh1pre i hl
      · rw [List.mem_singleton.mp hr]
        exact hcoh1x
    have hdec' : g.executionOrder = (pre ++ [x]) ++ xs := by
      rw [hdec, List.append_assoc]
      rfl
    obtain ⟨hs, hc⟩ := ih (pre ++ [x]) (Graph.stepNode C h x) hdec' hskel1 hcoh1
    refine ⟨hs, ?_⟩
    intro i hi
    refine hc i ?_
    rw [List.append_assoc]
    exact hi

/-- Executable check of the topological-order invariant. -/
def topoB (g : Graph) (l : List String) : Bool :=
  (List.range l.length).all (fun k =>
    (inputsOf g (l.getD k "")).all (fun j =>
      (List.range k).any (fun m => l.getD m "" = j)))

theorem topoB_spec {g : Graph} {l : List String} (h : topoB g l = true) :
    TopoList g l := by
  intro k hk j hj
  rw [topoB, List.all_eq_true] at h
  have h1 := h k (List.mem_range.mpr hk)
  rw [List.all_eq_true] at h1
  have h2 := h1 j hj
  rw [List.any_eq_true] at h2
  obtain ⟨m, hm, hmj⟩ := h2
  exact ⟨m, List.mem_range.mp hm, of_decide_eq_true hmj⟩

/-- C6: on a graph whose execution order is duplicate-free,
topologically sorted and arity-correct — the invariants
`computeExecutionOrder` establishes — a completed forward pass followed
by `ComputationGraph.reset()` (which zeroes every gradient and active
flag but no value) and a second `forward()` reproduces bit-identical
state: the second pass is the identity on the reset graph, every node
value equals its value after the first pass, and the returned output
value is unchanged. -/
theorem claim6_reset_forward_idempotent (C : Ctx) (g : Graph)
    (hT : TopoList g g.executionOrder) (hN : g.executionOrder.Nodup)
    (hA : ∀ i ∈ g.executionOrder, ArityAt g i = true) :
    Graph.forwardPass C (Graph.resetG (Graph.forwardPass C g))
        = Graph.resetG (Graph.forwardPass C g) ∧
    (∀ j, valueOf (Graph.forwardPass C (Graph.resetG (Graph.forwardPass C g))) j
        = valueOf (Graph.forwardPass C g) j) ∧
    Graph.forwardOut C (Graph.resetG (Graph.forwardPass C g))
        = Graph.forwardOut C g := by
  obtain ⟨hskel, hcov⟩ :=
    fold_coherent_aux C g hT hN hA g.executionOrder [] g rfl
      (fun j => rfl) (by simp)
  have hcov' : ∀ i ∈ g.executionOrder, CoherentAt C (Graph.forwardPass C g) i := by
    intro i hi
    exact hcov i (by simpa using hi)
  have horder : (Graph.forwardPass C g).executionOrder = g.executionOrder :=
    foldl_stepNode_order C g.executionOrder g
  have hout : (Graph.forwardPass C g).outputNode = g.outputNode :=
    foldl_stepNode_outputNode C g.executionOrder g
  have hcohr : Coherent C (Graph.resetG (Graph.forwardPass C g)) := by
    intro i hi
    refine resetG_coherentAt C _ i (hcov' i ?_)
    have : (Graph.resetG (Graph.forwardPass C g)).executionOrder
        = g.executionOrder := horder
    rw [this] at hi
    exact hi
  have hfix : Graph.forwardPass C (Graph.resetG (Graph.forwardPass C g))
      = Graph.resetG (Graph.forwardPass C g) :=
    forwardPass_fix C _ hcohr
  refine ⟨hfix, ?_, ?_⟩
  · intro j
    rw [hfix]
    exact resetG_valueOf _ j
  · have houtr : (Graph.resetG (Graph.forwardPass C g)).outputNode
        = g.outputNode := hout
    rw [Graph.forwardOut, Graph.forwardOut, houtr]
    cases hgo : g.outputNode with
    | none => rfl
    | some o =>
      rw [hfix]
      exact resetG_valueOf _ o

/-- Concrete graph for the C6 witness: `s = (x·y)²` with `x = 3`,
`y = 2`. -/
def c6G : Graph :=
  { nodes := [⟨"x", .input, "x", 3, 0, [], 0, false⟩,
              ⟨"y", .param, "y", 2, 0, [], 0, false⟩,
              ⟨"p", .multiply, "p", 0, 0, ["x", "y"], 0, false⟩,
              ⟨"s", .square, "s", 0, 0, ["p"], 0, false⟩]
    executionOrder := ["x", "y", "p", "s"]
    outputNode := some "s" }

/-- C6 witness: the idempotence theorem applied to the concrete graph
`s = (x·y)²`, whose execution order satisfies all three hypotheses by
computation. -/
theorem claim6_witness :
    Graph.forwardPass ctx0 (Graph.resetG (Graph.forwardPass ctx0 c6G))
        = Graph.resetG (Graph.forwardPass ctx0 c6G) ∧
    valueOf (Graph.forwardPass ctx0 (Graph.resetG (Graph.forwardPass ctx0 c6G))) "s"
        = valueOf (Graph.forwardPass ctx0 c6G) "s" ∧
    Graph.forwardOut ctx0 (Graph.resetG (Graph.forwardPass ctx0 c6G))
        = Graph.forwardOut ctx0 c6G := by
  have h := claim6_reset_forward_idempotent ctx0 c6G
    (topoB_spec (by decide)) (by decide) (by decide)
  exact ⟨h.1, h.2.1 "s", h.2.2⟩

/-! ## C5: the derived execution order is a duplicate-free topological
sort of the nodes reachable from the output node. -/

/-- Acyclicity, witnessed by a rank function that strictly decreases
along every input edge of the arena. -/
def RankOk (g : Graph) (rank : String → Nat) : Prop :=
  ∀ n ∈ g.nodes, ∀ j ∈ n.inputs, rank j < rank n.id

/-- Reachability along input edges. -/
inductive Reaches (g : Graph) : String → String → Prop
  | refl (i : String) : Reaches g i i
  | step {i j k : String} : j ∈ inputsOf g i → Reaches g j k → Reaches g i k

/-- The distinct node ids of the arena. -/
def graphIds (g : Graph) : List String :=
  (g.nodes.map Node.id).dedup

/-- Number of arena ids not yet visited (the DFS termination measure). -/
def unvisited (g : Graph) (vis : List String) : Nat :=
  (graphIds g).countP (fun x => decide (¬ x ∈ vis))

theorem unvisited_anti (g : Graph) {vis vis' : List String}
    (h : ∀ x ∈ vis, x ∈ vis') : unvisited g vis' ≤ unvisited g vis := by
  refine List.countP_mono_left ?_
  intro x _ hx
  have hnx : ¬ x ∈ vis' := of_decide_eq_true hx
  exact decide_eq_true (fun hm => hnx (h x hm))

theorem countP_lt_of_pq {l : List String} {p q : String → Bool} {a : String}
    (ha : a ∈ l) (hpa : p a = true) (hqa : q a = false)
    (himp : ∀ x ∈ l, q x = true → p x = true) :
    l.countP q < l.countP p := by
  induction l with
  | nil => cases ha
  | cons b bs ih =>
    rw [List.countP_cons, List.countP_cons]
    rcases List.mem_cons.mp ha with hb | hbs
    · subst hb
      have hmono : bs.countP q ≤ bs.countP p :=
        List.countP_mono_left (fun x hx => himp x (List.mem_cons_of_mem _ hx))
      simp only [hpa, hqa]
      simp
      omega
    · have hlt := ih hbs (fun x hx => himp x (List.mem_cons_of_mem _ hx))
      by_cases hq : q b = true
      · simp only [hq, himp b (List.mem_cons_self b bs) hq]
        omega
      · have hq' : q b = false := by
          cases hqb : q b
          · rfl
          · exact absurd hqb hq
        simp only [hq']
        by_cases hp : p b = true
        · simp only [hp]
          simp
          omega
        · have hp' : p b = false := by
            cases hpb : p b
            · rfl
            · exact absurd hpb hp
          simp only [hp']
          simp
          omega

theorem unvisited_strict (g : Graph) {vis : List String} {i : String}
    (hg : i ∈ graphIds g) (hv : ¬ i ∈ vis) :
    unvisited g (i :: vis) < unvisited g vis := by
  refine countP_lt_of_pq hg (decide_eq_true hv) ?_ ?_
  · have : i ∈ i :: vis := List.mem_cons_self i vis
    simp [this]
  · intro x _ hx
    have hnx : ¬ x ∈ i :: vis := of_decide_eq_true hx
    exact decide_eq_true (fun hm => hnx (List.mem_cons_of_mem _ hm))

theorem find_mem_graphIds {g : Graph} {i : String} {n : Node}
    (h : g.find i = some n) : i ∈ graphIds g := by
  have hmem : n ∈ g.nodes := List.mem_of_find?_eq_some h
  have hid : n.id = i := find_id h
  rw [graphIds, List.mem_dedup, ← hid]
  exact List.mem_map_of_mem Node.id hmem

/-- Every input edge of the arena strictly decreases the rank. -/
theorem rankOk_input {g : Graph} {rank : String → Nat} (h : RankOk g rank)
    {i j : String} (hj : j ∈ inputsOf g i) : rank j < rank i := by
  rw [inputsOf] at hj
  cases hf : g.find i with
  | none =>
    rw [hf] at hj
    cases hj
  | some n =>
    rw [hf] at hj
    have hmem : n ∈ g.nodes := List.mem_of_find?_eq_some hf
    have hid : n.id = i := find_id hf
    rw [← hid]
    exact h n hmem j hj

theorem mem_index {l : List String} {j : String} (h : j ∈ l) :
    ∃ m, m < l.length ∧ l.getD m "" = j := by
  obtain ⟨⟨m, hm⟩, hget⟩ := List.get_of_mem h
  exact ⟨m, hm, by rw [getD_eq_get hm]; exact hget⟩

theorem topoList_mem_input {g : Graph} {L : List String} (hT : TopoList g L)
    {i j : String} (hi : i ∈ L) (hj : j ∈ inputsOf g i) : j ∈ L := by
  obtain ⟨m, hm, hgm⟩ := mem_index hi
  obtain ⟨m2, hm2, hgm2⟩ := hT m hm j (by rw [hgm]; exact hj)
  rw [← hgm2]
  exact getD_mem_of_lt (lt_trans hm2 hm)

/-- Appending one entry whose inputs are already listed preserves the
topological invariant. -/
theorem topoList_snoc (g : Graph) (l : List String) (i : String)
    (hT : TopoList g l)
    (hin : ∀ j ∈ inputsOf g i, ∃ m, m < l.length ∧ l.getD m "" = j) :
    TopoList g (l ++ [i]) := by
  intro k hk j hj
  have hlen : (l ++ [i]).length = l.length + 1 := by simp
  rw [hlen] at hk
  by_cases hkl : k < l.length
  · rw [getD_append_lt l [i] k hkl] at hj
    obtain ⟨m, hm, hgm⟩ := hT k hkl j hj
    exact ⟨m, hm, by rw [getD_append_lt l [i] m (lt_trans hm hkl)]; exact hgm⟩
  · have hke : k = l.length := by omega
    subst hke
    rw [getD_append_length l i []] at hj
    obtain ⟨m, hm, hgm⟩ := hin j hj
    exact ⟨m, hm, by rw [getD_append_lt l [i] m hm]; exact hgm⟩

/-- State-evolution invariant of one or more DFS calls: the visited set
grows, the emitted order grows by fresh ids only, the set of visited
but not yet emitted ids never grows, and the emitted order stays a
duplicate-free topological list covered by the visited set. -/
def FoldInv (g : Graph) (vis ord vis' ord' : List String) : Prop :=
  (∀ x ∈ vis, x ∈ vis') ∧
  (∃ δ, ord' = ord ++ δ ∧ ∀ x ∈ δ, ¬ x ∈ vis) ∧
  (∀ m ∈ vis', ¬ m ∈ ord' → m ∈ vis ∧ ¬ m ∈ ord) ∧
  ord'.Nodup ∧ (∀ x ∈ ord', x ∈ vis') ∧ TopoList g ord'

theorem foldInv_refl (g : Graph) (vis ord : List String)
    (hnd : ord.Nodup) (hsub : ∀ x ∈ ord, x ∈ vis) (hT : TopoList g ord) :
    FoldInv g vis ord vis ord :=
  ⟨fun _ hx => hx, ⟨[], by simp, by simp⟩, fun m hm hmo => ⟨hm, hmo⟩,
   hnd, hsub, hT⟩

theorem foldInv_trans (g : Graph) {v0 o0 v1 o1 v2 o2 : List String}
    (h1 : FoldInv g v0 o0 v1 o1) (h2 : FoldInv g v1 o1 v2 o2) :
    FoldInv g v0 o0 v2 o2 := by
  obtain ⟨a1, ⟨δ1, hδ1, hf1⟩, c1, _, _, _⟩ := h1
  obtain ⟨a2, ⟨δ2, hδ2, hf2⟩, c2, d2, e2, t2⟩ := h2
  refine ⟨fun x hx => a2 x (a1 x hx), ⟨δ1 ++ δ2, ?_, ?_⟩, ?_, d2, e2, t2⟩
  · rw [hδ2, hδ1, List.append_assoc]
  · intro x hx
    rcases List.mem_append.mp hx with h | h
    · exact hf1 x h
    · exact fun hv => hf2 x h (a1 x hv)
  · intro m hm hmo
    obtain ⟨hm1, hmo1⟩ := c2 m hm hmo
    exact c1 m hm1 hmo1

/-- Unfolding equation of `dfs` at positive fuel. -/
theorem dfs_succ (g : Graph) (fuel : Nat) (i : String)
    (st : List String × List String) :
    dfs g (fuel + 1) i st =
      if i ∈ st.1 then st
      else ((dfsList g fuel (inputsOf g i) (i :: st.1, st.2)).1,
            (dfsList g fuel (inputsOf g i) (i :: st.1, st.2)).2 ++ [i]) := rfl

/-- Specification of the DFS fold over a child list, given the
specification of a single DFS call at the same fuel. -/
theorem dfsList_spec (g : Graph) (rank : String → Nat) (fuel : Nat)
    (IH : ∀ i vis ord, unvisited g vis < fuel → ord.Nodup →
        (∀ x ∈ ord, x ∈ vis) → TopoList g ord →
        (∀ m ∈ vis, ¬ m ∈ ord → rank i < rank m) →
        FoldInv g vis ord (dfs g fuel i (vis, ord)).1 (dfs g fuel i (vis, ord)).2 ∧
        i ∈ (dfs g fuel i (vis, ord)).1 ∧
        (¬ i ∈ vis → i ∈ (dfs g fuel i (vis, ord)).2)) :
    ∀ js vis ord, unvisited g vis < fuel → ord.Nodup →
      (∀ x ∈ ord, x ∈ vis) → TopoList g ord →
      (∀ j ∈ js, ∀ m ∈ vis, ¬ m ∈ ord → rank j < rank m) →
      FoldInv g vis ord (dfsList g fuel js (vis, ord)).1
        (dfsList g fuel js (vis, ord)).2 ∧
      ∀ j ∈ js, j ∈ (dfsList g fuel js (vis, ord)).1 := by
  intro js
  induction js with
  | nil =>
    intro vis ord _ hnd hsub hT _
    exact ⟨foldInv_refl g vis ord hnd hsub hT, by simp⟩
  | cons j js ihl =>
    intro vis ord hfu hnd hsub hT hlo
    obtain ⟨hFI1, hjv, _⟩ :=
      IH j vis ord hfu hnd hsub hT (hlo j (List.mem_cons_self j js))
    have hc1 := hFI1.1
    have hc3 := hFI1.2.2.1
    have hc4 := hFI1.2.2.2.1
    have hc5 := hFI1.2.2.2.2.1
    have hc6 := hFI1.2.2.2.2.2
    have hfu2 : unvisited g (dfs g fuel j (vis, ord)).1 < fuel :=
      lt_of_le_of_lt (unvisited_anti g hc1) hfu
    have hlo2 : ∀ j' ∈ js, ∀ m ∈ (dfs g fuel j (vis, ord)).1,
        ¬ m ∈ (dfs g fuel j (vis, ord)).2 → rank j' < rank m := by
      intro j' hj' m hm hmo
      obtain ⟨hmv, hmord⟩ := hc3 m hm hmo
      exact hlo j' (List.mem_cons_of_mem _ hj') m hmv hmord
    obtain ⟨hFI2, hall2⟩ :=
      ihl (dfs g fuel j (vis, ord)).1 (dfs g fuel j (vis, ord)).2
        hfu2 hc4 hc5 hc6 hlo2
    have heq : dfsList g fuel (j :: js) (vis, ord)
        = dfsList g fuel js
            ((dfs g fuel j (vis, ord)).1, (dfs g fuel j (vis, ord)).2) := rfl
    rw [heq]
    refine ⟨foldInv_trans g hFI1 hFI2, ?_⟩
    intro j' hj'
    rcases List.mem_cons.mp hj' with h | h
    · subst h
      exact hFI2.1 j' hjv
    · exact hall2 j' h

/-- Full specification of one DFS call, by induction on the fuel: with
fuel exceeding the number of unvisited arena ids, the call preserves
the state invariant, visits its argument, and emits it unless it was
already visited. -/
theorem dfs_spec (g : Graph) (rank : String → Nat) (hrank : RankOk g rank) :
    ∀ fuel i vis ord, unvisited g vis < fuel → ord.Nodup →
      (∀ x ∈ ord, x ∈ vis) → TopoList g ord →
      (∀ m ∈ vis, ¬ m ∈ ord → rank i < rank m) →
      FoldInv g vis ord (dfs g fuel i (vis, ord)).1 (dfs g fuel i (vis, ord)).2 ∧
      i ∈ (dfs g fuel i (vis, ord)).1 ∧
      (¬ i ∈ vis → i ∈ (dfs g fuel i (vis, ord)).2) := by
  intro fuel
  induction fuel with
  | zero =>
    intro i vis ord hfu
    exact absurd hfu (by omega)
  | succ fuel ihf =>
    intro i vis ord hfu hnd hsub hT hgray
    by_cases hiv : i ∈ vis
    · have heq : dfs g (fuel + 1) i (vis, ord) = (vis, ord) := by
        rw [dfs_succ]
        exact if_pos hiv
      rw [heq]
      exact ⟨foldInv_refl g vis ord hnd hsub hT, hiv, fun h => absurd hiv h⟩
    · have heq : dfs g (fuel + 1) i (vis, ord)
          = ((dfsList g fuel (inputsOf g i) (i :: vis, ord)).1,
             (dfsList g fuel (inputsOf g i) (i :: vis, ord)).2 ++ [i]) := by
        rw [dfs_succ]
        exact if_neg hiv
      rw [heq]
      by_cases hjs : inputsOf g i = []
      · have heq2 : dfsList g fuel (inputsOf g i) (i :: vis, ord)
            = (i :: vis, ord) := by
          rw [hjs]
          rfl
        rw [heq2]
        have hio : ¬ i ∈ ord := fun h => hiv (hsub i h)
        refine ⟨⟨fun x hx => List.mem_cons_of_mem _ hx,
          ⟨[i], rfl, by simpa using hiv⟩, ?_, ?_, ?_, ?_⟩,
          List.mem_cons_self i vis, fun _ => List.mem_append_right _ (by simp)⟩
        · intro m hm hmo
          have hmi : m ≠ i := fun he => hmo (he ▸ List.mem_append_right _ (by simp))
          rcases List.mem_cons.mp hm with h | h
          · exact absurd h hmi
          · exact ⟨h, fun ho => hmo (List.mem_append_left _ ho)⟩
        · simp [List.nodup_append, hnd, hio]
        · intro x hx
          rcases List.mem_append.mp hx with h | h
          · exact List.mem_cons_of_mem _ (hsub x h)
          · rw [List.mem_singleton.mp h]
            exact List.mem_cons_self i vis
        · refine topoList_snoc g ord i hT ?_
          rw [hjs]
          intro j hj
          cases hj
      · have hfind : ∃ n, g.find i = some n := by
          cases hf : g.find i with
          | none =>
            refine absurd ?_ hjs
            rw [inputsOf, hf]
            rfl
          | some n => exact ⟨n, rfl⟩
        obtain ⟨n, hn⟩ := hfind
        have higid : i ∈ graphIds g := find_mem_graphIds hn
        have hfu2 : unvisited g (i :: vis) < fuel :=
          lt_of_lt_of_le (unvisited_strict g higid hiv) (Nat.lt_succ_iff.mp hfu)
        have hsub2 : ∀ x ∈ ord, x ∈ i :: vis :=
          fun x hx => List.mem_cons_of_mem _ (hsub x hx)
        have hlo : ∀ j ∈ inputsOf g i, ∀ m ∈ i :: vis,
            ¬ m ∈ ord → rank j < rank m := by
          intro j hj m hm hmo
          rcases List.mem_cons.mp hm with h | h
          · rw [h]
            exact rankOk_input hrank hj
          · exact lt_trans (rankOk_input hrank hj) (hgray m h hmo)
        obtain ⟨hFI, hall⟩ :=
          dfsList_spec g rank fuel ihf (inputsOf g i) (i :: vis) ord
            hfu2 hnd hsub2 hT hlo
        obtain ⟨hc1, ⟨δ2, hδ2, hfr2⟩, hc3, hc4, hc5, hc6⟩ := hFI
        have hio : ¬ i ∈ ord := fun h => hiv (hsub i h)
        have hio2 : ¬ i ∈ (dfsList g fuel (inputsOf g i) (i :: vis, ord)).2 := by
          rw [hδ2]
          intro h
          rcases List.mem_append.mp h with h | h
          · exact hio h
          · exact hfr2 i h (List.mem_cons_self i vis)
        have hjblack : ∀ j ∈ inputsOf g i,
            j ∈ (dfsList g fuel (inputsOf g i) (i :: vis, ord)).2 := by
          intro j hj
          by_contra hjo
          obtain ⟨hjv2, hjord⟩ := hc3 j (hall j hj) hjo
          rcases List.mem_cons.mp hjv2 with h | h
          · exact absurd (h ▸ rankOk_input hrank hj) (lt_irrefl _)
          · exact absurd (rankOk_input hrank hj)
              (not_lt_of_gt (hgray j h hjord))
        refine ⟨⟨fun x hx => hc1 x (List.mem_cons_of_mem _ hx),
          ⟨δ2 ++ [i], ?_, ?_⟩, ?_, ?_, ?_, ?_⟩,
          hc1 i (List.mem_cons_self i vis),
          fun _ => List.mem_append_right _ (by simp)⟩
        · rw [hδ2, List.append_assoc]
        · intro x hx
          rcases List.mem_append.mp hx with h | h
          · exact fun hv => hfr2 x h (List.mem_cons_of_mem _ hv)
          · rw [List.mem_singleton.mp h]
            exact hiv
        · intro m hm hmo
          have hmi : m ≠ i := fun he =>
            hmo (he ▸ List.mem_append_right _ (by simp))
          have hmo2 : ¬ m ∈ (dfsList g fuel (inputsOf g i) (i :: vis, ord)).2 :=
            fun h => hmo (List.mem_append_left _ h)
          obtain ⟨hmv, hmord⟩ := hc3 m hm hmo2
          rcases List.mem_cons.mp hmv with h | h
          · exact absurd h hmi
          · exact ⟨h, hmord⟩
        · simp [List.nodup_append, hc4, hio2]
        · intro x hx
          rcases List.mem_append.mp hx with h | h
          · exact hc5 x h
          · rw [List.mem_singleton.mp h]
            exact hc1 i (List.mem_cons_self i vis)
        · refine topoList_snoc g _ i hc6 ?_
          intro j hj
          exact mem_index (hjblack j hj)

/-- C5: on an acyclic arena (witnessed by a rank function that strictly
decreases along input edges), `setOutput` derives an `executionOrder`
that contains every node reachable from the output node, contains no
node twice, and lists every node strictly after each of its inputs
(post-order depth-first traversal with a visited set). -/
theorem claim5_execution_order (g : Graph) (o : String) (rank : String → Nat)
    (hrank : RankOk g rank) :
    (∀ k, Reaches g o k → k ∈ (Graph.setOutput g o).executionOrder) ∧
    (Graph.setOutput g o).executionOrder.Nodup ∧
    TopoList g (Graph.setOutput g o).executionOrder := by
  have hfu : unvisited g [] < g.nodes.length + 1 := by
    have h1 : unvisited g [] ≤ (graphIds g).length := List.countP_le_length _
    have h2 : (graphIds g).length ≤ g.nodes.length := by
      have h3 := List.Sublist.length_le (List.dedup_sublist (g.nodes.map Node.id))
      simpa using h3
    omega
  obtain ⟨⟨_, _, _, hc4, _, hc6⟩, _, hoo⟩ :=
    dfs_spec g rank hrank (g.nodes.length + 1) o [] []
      hfu List.nodup_nil (by simp)
      (fun k hk => absurd hk (Nat.not_lt_zero k)) (by simp)
  have hL : (Graph.setOutput g o).executionOrder
      = (dfs g (g.nodes.length + 1) o ([], [])).2 := rfl
  rw [hL]
  have hmemo : o ∈ (dfs g (g.nodes.length + 1) o ([], [])).2 :=
    hoo (by simp)
  refine ⟨?_, hc4, hc6⟩
  have hreach : ∀ a k, Reaches g a k →
      a ∈ (dfs g (g.nodes.length + 1) o ([], [])).2 →
      k ∈ (dfs g (g.nodes.length + 1) o ([], [])).2 := by
    intro a k hr
    induction hr with
    | refl => exact id
    | step hedge _ ih => exact fun ha => ih (topoList_mem_input hc6 ha hedge)
  exact fun k hk => hreach o k hk hmemo

/-- Concrete graph for the C5 witness: `t = x + (x · y)`. -/
def c5G : Graph :=
  { nodes := [⟨"x", .input, "x", 1, 0, [], 0, false⟩,
              ⟨"y", .param, "y", 4, 0, [], 0, false⟩,
              ⟨"p", .multiply, "p", 0, 0, ["x", "y"], 0, false⟩,
              ⟨"t", .add, "t", 0, 0, ["x", "p"], 0, false⟩] }

/-- Rank function witnessing that `c5G` is acyclic. -/
def c5rank : String → Nat :=
  fun i => if i = "t" then 3 else if i = "p" then 2 else if i = "y" then 1 else 0

/-- C5 witness: the topological-order theorem applied to the concrete
graph `t = x + (x · y)`, with the node `x` reached through the chain
`t → p → x`. -/
theorem claim5_witness :
    "x" ∈ (Graph.setOutput c5G "t").executionOrder ∧
    (Graph.setOutput c5G "t").executionOrder.Nodup ∧
    TopoList c5G (Graph.setOutput c5G "t").executionOrder := by
  have h := claim5_execution_order c5G "t" c5rank
    (by decide : ∀ n ∈ c5G.nodes, ∀ j ∈ n.inputs, c5rank j < c5rank n.id)
  exact ⟨h.1 "x" (@Reaches.step c5G "t" "p" "x" (by decide)
    (@Reaches.step c5G "p" "x" "x" (by decide) (Reaches.refl "x"))), h.2.1, h.2.2⟩

/-! ## ExecutionEngine layer (`ExecutionEngine.ts`, engine part) -/

/-- `ExecutionMode`. -/
inductive EMode where
  | idle
  | forward
  | backward
deriving DecidableEq, Repr

/-- `StepInfo`: one step record; `values` models the JS object as its
insertion-ordered key/value list. -/
structure StepInfo where
  mode : EMode
  nodeId : String
  nodeName : String
  equation : String
  explanation : String
  values : List (String × ℚ)
  activeNodeIds : List String
  activeEdgeIds : List String
deriving DecidableEq, Repr

/-- Placeholder record used for out-of-range list reads (the sources
never read out of range). -/
def stepDefault : StepInfo := ⟨.forward, "", "", "", "", [], [], []⟩

/-- `ExecutionState` returned by `getState()`; `activeNodes` models the
JS `Set` as its insertion-ordered element list. -/
structure ExecutionState where
  mode : EMode
  currentStep : Int
  totalSteps : Nat
  activeNodes : List String
  steps : List StepInfo
  isComplete : Bool
deriving DecidableEq, Repr

/-- `ExecutionEngine` instance state; `pending` models the
`pendingGradients` map as its insertion-ordered entry list. -/
structure Engine where
  graph : Graph
  forwardSteps : List StepInfo
  backwardSteps : List StepInfo
  currentStepIndex : Int
  mode : EMode
  pending : List (String × ℚ)
deriving DecidableEq, Repr

/-- `Map.get`: first entry with the key. -/
def alget : List (String × ℚ) → String → Option ℚ
  | [], _ => none
  | kv :: rest, k => if kv.1 = k then some kv.2 else alget rest k

/-- `Map.set` / JS object write: replace the entry in place, else
append. -/
def alset : List (String × ℚ) → String → ℚ → List (String × ℚ)
  | [], k, v => [(k, v)]
  | kv :: rest, k, v => if kv.1 = k then (k, v) :: rest else kv :: alset rest k v

/-- The accumulation loop of the backward branch of `stepForward`:
`pendingGradients.set(id, (pendingGradients.get(id) || 0) + grad)` for
each entry. -/
def accGrads (p : List (String × ℚ)) (l : List (String × ℚ)) : List (String × ℚ) :=
  l.foldl (fun p kv => alset p kv.1 ((alget p kv.1).getD 0 + kv.2)) p

/-- Display name of the k-th input. -/
def inName (g : Graph) (n : Node) (k : Nat) : String :=
  nameOf g (n.inputs.getD k "")

/-- `getForwardEquation()` of each node class (with `toFixed(3)`
abstracted as `C.fmt`). -/
def getForwardEquation (C : Ctx) (g : Graph) (n : Node) : String :=
  match n.op with
  | .input => n.name ++ " = " ++ C.fmt n.value
  | .param => n.name ++ " = " ++ C.fmt n.value
  | .multiply => n.name ++ " = " ++ inName g n 0 ++ " × " ++ inName g n 1 ++ " = "
      ++ C.fmt (inVal g n 0) ++ " × " ++ C.fmt (inVal g n 1) ++ " = " ++ C.fmt n.value
  | .add => n.name ++ " = " ++ inName g n 0 ++ " + " ++ inName g n 1 ++ " = "
      ++ C.fmt (inVal g n 0) ++ " + " ++ C.fmt (inVal g n 1) ++ " = " ++ C.fmt n.value
  | .subtract => n.name ++ " = " ++ inName g n 0 ++ " - " ++ inName g n 1 ++ " = "
      ++ C.fmt (inVal g n 0) ++ " - " ++ C.fmt (inVal g n 1) ++ " = " ++ C.fmt n.value
  | .sigmoid => n.name ++ " = σ(" ++ inName g n 0 ++ ") = 1/(1+e^(-"
      ++ C.fmt (inVal g n 0) ++ ")) = " ++ C.fmt n.value
  | .relu => n.name ++ " = ReLU(" ++ inName g n 0 ++ ") = max(0, "
      ++ C.fmt (inVal g n 0) ++ ") = " ++ C.fmt n.value
  | .square => n.name ++ " = " ++ inName g n 0 ++ "² = ("
      ++ C.fmt (inVal g n 0) ++ ")² = " ++ C.fmt n.value
  | .max => n.name ++ " = max(" ++ inName g n 0 ++ ", " ++ inName g n 1 ++ ") = max("
      ++ C.fmt (inVal g n 0) ++ ", " ++ C.fmt (inVal g n 1) ++ ") = " ++ C.fmt n.value

/-- `getBackwardEquation()` of each node class. -/
def getBackwardEquation (C : Ctx) (g : Graph) (n : Node) : String :=
  match n.op with
  | .input => "∂L/∂" ++ n.name ++ " = " ++ C.fmt n.gradient
  | .param => "∂L/∂" ++ n.name ++ " = " ++ C.fmt n.gradient
  | .multiply => "∂L/∂" ++ inName g n 0 ++ " = " ++ inName g n 1 ++ " × ∂L/∂"
      ++ n.name ++ " = " ++ C.fmt (inVal g n 1) ++ " × " ++ C.fmt n.gradient
      ++ " = " ++ C.fmt (inVal g n 1 * n.gradient)
  | .add => "∂L/∂" ++ inName g n 0 ++ " = ∂L/∂" ++ n.name ++ " = " ++ C.fmt n.gradient
  | .subtract => "∂L/∂" ++ inName g n 0 ++ " = " ++ C.fmt n.gradient
      ++ ", ∂L/∂" ++ inName g n 1 ++ " = -" ++ C.fmt n.gradient
  | .sigmoid => "∂L/∂" ++ inName g n 0 ++ " = σ\x27(" ++ inName g n 0 ++ ") × ∂L/∂"
      ++ n.name ++ " = " ++ C.fmt (n.value * (1 - n.value)) ++ " × "
      ++ C.fmt n.gradient ++ " = " ++ C.fmt (n.value * (1 - n.value) * n.gradient)
  | .relu => "∂L/∂" ++ inName g n 0 ++ " = "
      ++ (if inVal g n 0 > 0 then "1" else "0") ++ " × ∂L/∂" ++ n.name ++ " = "
      ++ (if inVal g n 0 > 0 then "1" else "0") ++ " × " ++ C.fmt n.gradient
      ++ " = " ++ C.fmt ((if inVal g n 0 > 0 then (1 : ℚ) else 0) * n.gradient)
  | .square => "∂L/∂" ++ inName g n 0 ++ " = 2×" ++ inName g n 0 ++ " × ∂L/∂"
      ++ n.name ++ " = " ++ C.fmt (2 * inVal g n 0) ++ " × " ++ C.fmt n.gradient
      ++ " = " ++ C.fmt (2 * inVal g n 0 * n.gradient)
  | .max => "∂L/∂" ++ (if n.maxIndex = 0 then inName g n 0 else inName g n 1)
      ++ " = " ++ C.fmt n.gradient ++ " (gradient flows to max input only)"

/-- `getExplanation()` of each node class. -/
def getExplanation (g : Graph) (n : Node) : String :=
  match n.op with
  | .input => "Input variable " ++ n.name
  | .param => "Parameter " ++ n.name ++ " (trainable)"
  | .multiply => "Multiplication: output = input1 × input2. Gradient multiplies by the other input."
  | .add => "Addition: output = input1 + input2. Gradient passes through unchanged."
  | .subtract => "Subtraction: x - y. First input gets gradient, second gets negated gradient."
  | .sigmoid => "Sigmoid activation: σ(x) = 1/(1+e^(-x)). Gradient: σ\x27(x) = σ(x)(1-σ(x))"
  | .relu => "ReLU: max(0, x). Gradient: 1 if x > 0, else 0 (gate)"
  | .square => "Square: x². Local gradient: 2x (power rule)"
  | .max => "Max operation: Gradient flows only to the input that was larger ("
      ++ (if n.maxIndex = 0 then inName g n 0 else inName g n 1) ++ "), like a gate."

/-- One forward step skeleton of `generateSteps()` (equation and values
are left empty until the step executes; in the source the execution
order holds node objects, so the lookup never misses). -/
def genForwardStep (g : Graph) (i : String) : StepInfo :=
  match g.find i with
  | none => stepDefault
  | some n =>
    { mode := .forward
      nodeId := n.id
      nodeName := n.name
      equation := ""
      explanation := getExplanation g n
      values := []
      activeNodeIds := n.inputs ++ [n.id]
      activeEdgeIds := n.inputs.map (fun j => j ++ "-" ++ n.id) }

/-- One backward step skeleton of `generateSteps()`. -/
def genBackwardStep (g : Graph) (i : String) : StepInfo :=
  match g.find i with
  | none => stepDefault
  | some n =>
    { mode := .backward
      nodeId := n.id
      nodeName := n.name
      equation := ""
      explanation := "Computing gradients: " ++ getExplanation g n
      values := []
      activeNodeIds := n.id :: n.inputs
      activeEdgeIds := n.inputs.map (fun j => n.id ++ "-" ++ j) }

/-- The forward half of `generateSteps()`. -/
def genForwardSteps (g : Graph) : List StepInfo :=
  g.executionOrder.map (genForwardStep g)

/-- The backward half of `generateSteps()` (reverse execution order). -/
def genBackwardSteps (g : Graph) : List StepInfo :=
  g.executionOrder.reverse.map (genBackwardStep g)

/-- Modelled from the spec: `node.backwardLocal(upstreamGradient)` is
called by `ExecutionEngine.stepForward` but is defined nowhere in the
repository sources.  §4.5 of the spec states that a backward step
"computes that node\x27s local gradient contribution to each of its
inputs via the same per-variant rule described in §4.3"; this models it
as the per-input list of (input id, contribution) pairs given by those
rules, mutating nothing. -/
def backwardLocal (g : Graph) (n : Node) (u : ℚ) : List (String × ℚ) :=
  let i0 := n.inputs.getD 0 ""
  let i1 := n.inputs.getD 1 ""
  match n.op with
  | .input => []
  | .param => []
  | .multiply => [(i0, inVal g n 1 * u), (i1, inVal g n 0 * u)]
  | .add => [(i0, u), (i1, u)]
  | .subtract => [(i0, u), (i1, -u)]
  | .square => [(i0, 2 * inVal g n 0 * u)]
  | .sigmoid => [(i0, n.value * (1 - n.value) * u)]
  | .relu => [(i0, (if 0 < inVal g n 0 then (1 : ℚ) else 0) * u)]
  | .max => if n.maxIndex = 0 then [(i0, u), (i1, 0)] else [(i0, 0), (i1, u)]

/-- `allSteps = [...forwardSteps, ...backwardSteps]`. -/
def Engine.allSteps (e : Engine) : List StepInfo :=
  e.forwardSteps ++ e.backwardSteps

/-- `ExecutionEngine.stepForward()`: advance the cursor and execute the
reached step; returns the new engine state and the boolean result. -/
def Engine.stepForward (C : Ctx) (e : Engine) : Engine × Bool :=
  if e.currentStepIndex ≥ (e.allSteps.length : Int) - 1 then (e, false)
  else
    let idx := e.currentStepIndex + 1
    let k := idx.toNat
    let cur := e.allSteps.getD k stepDefault
    if k < e.forwardSteps.length then
      match e.graph.find cur.nodeId with
      | none => ({ e with currentStepIndex := idx, mode := cur.mode }, true)
      | some n =>
        let vm := computeVal C e.graph n
        let n1 : Node := { n with value := vm.1, maxIndex := vm.2, isActive := true }
        let g1 := e.graph.updNode n1
        let s0 := e.forwardSteps.getD k stepDefault
        let s1 := { s0 with
          equation := getForwardEquation C g1 n1
          values := (n1.inputs.map (fun j => (nameOf g1 j, valueOf g1 j))).foldl
            (fun m kv => alset m kv.1 kv.2) [("output", n1.value)] }
        ({ e with currentStepIndex := idx, mode := cur.mode,
                  graph := g1, forwardSteps := e.forwardSteps.set k s1 }, true)
    else
      let bidx := k - e.forwardSteps.length
      match e.graph.find cur.nodeId with
      | none => ({ e with currentStepIndex := idx, mode := cur.mode }, true)
      | some n =>
        let pend0 := if bidx = 0 then [(n.id, (1 : ℚ))] else e.pending
        let u := (alget pend0 n.id).getD 0
        let pend1 := accGrads pend0 (backwardLocal e.graph n u)
        let n1 : Node := { n with isActive := true }
        let g1 := e.graph.updNode n1
        let s0 := e.backwardSteps.getD bidx stepDefault
        let s1 := { s0 with
          equation := getBackwardEquation C g1 n1
          values := (n1.inputs.map (fun j =>
              ("grad_" ++ nameOf g1 j, (alget pend1 j).getD 0))).foldl
            (fun m kv => alset m kv.1 kv.2)
            [("gradient", n1.gradient), ("value", n1.value)] }
        ({ e with currentStepIndex := idx, mode := cur.mode,
                  graph := g1, pending := pend1,
                  backwardSteps := e.backwardSteps.set bidx s1 }, true)

/-- `ExecutionEngine.reset()`. -/
def Engine.resetE (e : Engine) : Engine :=
  let g1 := Graph.resetG e.graph
  { graph := g1
    forwardSteps := genForwardSteps g1
    backwardSteps := genBackwardSteps g1
    currentStepIndex := -1
    mode := .idle
    pending := [] }

/-- The constructor (`new ExecutionEngine(graph)` calls `reset()`). -/
def Engine.init (g : Graph) : Engine :=
  Engine.resetE ⟨g, [], [], -1, .idle, []⟩

/-- `stepForward()` applied n times (discarding the booleans). -/
def Engine.stepN (C : Ctx) (e : Engine) : Nat → Engine
  | 0 => e
  | m + 1 => Engine.stepN C (Engine.stepForward C e).1 m

/-- `ExecutionEngine.jumpToStep(stepIndex)`: guard, then reset only the
cursor and the graph (not the step arrays, the mode or the pending
map) and replay `stepForward` stepIndex + 1 times. -/
def Engine.jumpToStep (C : Ctx) (e : Engine) (n : Int) : Engine :=
  if n < 0 ∨ n ≥ (e.allSteps.length : Int) then e
  else
    Engine.stepN C
      { e with currentStepIndex := -1, graph := Graph.resetG e.graph }
      (n.toNat + 1)

/-- `ExecutionEngine.getState()`. -/
def Engine.getState (e : Engine) : ExecutionState :=
  { mode := e.mode
    currentStep := e.currentStepIndex
    totalSteps := e.allSteps.length
    activeNodes :=
      if e.currentStepIndex ≥ 0 then
        (e.allSteps.getD e.currentStepIndex.toNat stepDefault).activeNodeIds
      else []
    steps := e.allSteps
    isComplete := decide (e.currentStepIndex = (e.allSteps.length : Int) - 1) }

/-- C10: on a graph whose execution order is empty (no output node was
set, so `computeExecutionOrder` never ran), a freshly constructed or
just-reset engine reports mode `idle`, `currentStep = -1`,
`totalSteps = 0`, no active nodes, no steps and — vacuously —
`isComplete = true`; `stepForward()` then returns `false` and changes
nothing. -/
theorem claim10_empty_engine (C : Ctx) (g : Graph) (h : g.executionOrder = []) :
    Engine.getState (Engine.init g)
      = { mode := .idle, currentStep := -1, totalSteps := 0,
          activeNodes := [], steps := [], isComplete := true } ∧
    Engine.stepForward C (Engine.init g) = (Engine.init g, false) := by
  have hordr : (Graph.resetG g).executionOrder = g.executionOrder := rfl
  have hF : genForwardSteps (Graph.resetG g) = [] := by
    rw [genForwardSteps, hordr, h]
    rfl
  have hB : genBackwardSteps (Graph.resetG g) = [] := by
    rw [genBackwardSteps, hordr, h]
    rfl
  have hinit : Engine.init g
      = { graph := Graph.resetG g, forwardSteps := [], backwardSteps := [],
          currentStepIndex := -1, mode := .idle, pending := [] } := by
    rw [Engine.init, Engine.resetE]
    rw [hF, hB]
  rw [hinit]
  constructor
  · rw [Engine.getState]
    rfl
  · rw [Engine.stepForward]
    rfl

/-- C10 witness: the theorem at the literal empty graph. -/
theorem claim10_witness :
    Engine.getState (Engine.init { nodes := [] })
      = { mode := .idle, currentStep := -1, totalSteps := 0,
          activeNodes := [], steps := [], isComplete := true } ∧
    Engine.stepForward ctx0 (Engine.init { nodes := [] })
      = (Engine.init { nodes := [] }, false) :=
  claim10_empty_engine ctx0 { nodes := [] } rfl

/-! ## C1: iterative pending-gradient accumulation -/

theorem alget_alset_eq (p : List (String × ℚ)) (x : String) (v : ℚ) :
    alget (alset p x v) x = some v := by
  induction p with
  | nil => simp [alset, alget]
  | cons kv rest ih =>
    by_cases h : kv.1 = x
    · simp [alset, h, alget]
    · simp [alset, h, alget, ih]

theorem alget_alset_ne (p : List (String × ℚ)) (x s : String) (v : ℚ)
    (h : s ≠ x) : alget (alset p x v) s = alget p s := by
  have hxs : ¬ x = s := fun hc => h hc.symm
  induction p with
  | nil => simp [alset, alget, hxs]
  | cons kv rest ih =>
    by_cases hk : kv.1 = x
    · have hks : ¬ kv.1 = s := by
        rw [hk]
        exact hxs
      simp [alset, hk, alget, hxs, hks]
    · simp [alset, hk, alget, ih]

/-- Total contribution carried by entries with the given key. -/
def sumKey (l : List (String × ℚ)) (s : String) : ℚ :=
  ((l.filter (fun kv => decide (kv.1 = s))).map (fun kv => kv.2)).sum

/-- The accumulation fold adds, per key, the sum of that key\x27s
contributions to the previous accumulated value. -/
theorem alget_accGrads (l : List (String × ℚ)) (p : List (String × ℚ))
    (s : String) :
    (alget (accGrads p l) s).getD 0 = (alget p s).getD 0 + sumKey l s := by
  induction l generalizing p with
  | nil => simp [accGrads, sumKey]
  | cons kv rest ih =>
    have hstep : accGrads p (kv :: rest)
        = accGrads (alset p kv.1 ((alget p kv.1).getD 0 + kv.2)) rest := rfl
    rw [hstep, ih]
    by_cases h : s = kv.1
    · rw [h, alget_alset_eq, Option.getD_some]
      have hsum : sumKey (kv :: rest) kv.1 = kv.2 + sumKey rest kv.1 := by
        rw [sumKey, sumKey, List.filter_cons]
        simp
      rw [hsum]
      ring
    · rw [alget_alset_ne p kv.1 s _ h]
      have hks : ¬ kv.1 = s := fun hc => h hc.symm
      have hsum : sumKey (kv :: rest) s = sumKey rest s := by
        rw [sumKey, sumKey, List.filter_cons]
        simp [hks]
      rw [hsum]

/-- C1: every backward-phase `stepForward` after the first backward
step (which only seeds the output entry) looks up the stepped node\x27s
accumulated pending entry with default 0, computes the node\x27s local
per-input contributions, and adds each one into that input\x27s pending
entry: per key, the new accumulated value is the old value plus the sum
of this node\x27s contributions to that key, so inputs with several
consumers end up with the sum over all of them. -/
theorem claim1_pending_accumulates (C : Ctx) (e : Engine) (k : Nat)
    (hidx : e.currentStepIndex = (k : Int))
    (hF : e.forwardSteps.length ≤ k)
    (hlt : k + 1 < e.forwardSteps.length + e.backwardSteps.length)
    (n : Node)
    (hn : e.graph.find ((e.allSteps.getD (k + 1) stepDefault).nodeId) = some n) :
    (Engine.stepForward C e).1.pending
      = accGrads e.pending
          (backwardLocal e.graph n ((alget e.pending n.id).getD 0)) ∧
    ∀ s, (alget (Engine.stepForward C e).1.pending s).getD 0
      = (alget e.pending s).getD 0
        + sumKey (backwardLocal e.graph n ((alget e.pending n.id).getD 0)) s := by
  have hlen : e.allSteps.length = e.forwardSteps.length + e.backwardSteps.length := by
    rw [Engine.allSteps, List.length_append]
  have hguard : ¬ (e.currentStepIndex ≥ (e.allSteps.length : Int) - 1) := by
    rw [hidx, hlen]
    push_cast
    omega
  have hmain : (Engine.stepForward C e).1.pending
      = accGrads e.pending
          (backwardLocal e.graph n ((alget e.pending n.id).getD 0)) := by
    rw [Engine.stepForward, if_neg hguard]
    have htn : (e.currentStepIndex + 1).toNat = k + 1 := by
      rw [hidx]
      omega
    simp only [htn]
    have hnotF : ¬ (k + 1 < e.forwardSteps.length) := by omega
    rw [if_neg hnotF]
    simp only [hn]
    have hb0 : ¬ (k + 1 - e.forwardSteps.length = 0) := by omega
    rw [if_neg hb0]
  exact ⟨hmain, fun s => by rw [hmain, alget_accGrads]⟩

/-- Shared-input graph after its forward pass, for the C1 witness:
`out = s1 + s2`, `s1 = x²`, `s2 = x²`, `x = 2`. -/
def c1G : Graph :=
  { nodes := [⟨"x", .input, "x", 2, 0, [], 0, false⟩,
              ⟨"s1", .square, "s1", 4, 0, ["x"], 0, false⟩,
              ⟨"s2", .square, "s2", 4, 0, ["x"], 0, false⟩,
              ⟨"out", .add, "out", 8, 0, ["s1", "s2"], 0, false⟩]
    executionOrder := ["x", "s1", "s2", "out"]
    outputNode := some "out" }

/-- The `s1` node of `c1G`. -/
def c1N : Node := ⟨"s1", .square, "s1", 4, 0, ["x"], 0, false⟩

/-- Engine state about to execute backward step 2 (node `s1`), after
the backward steps for `out` and `s2` already contributed: `x` holds
the contribution 4 from `s2`. -/
def c1E : Engine :=
  { graph := c1G
    forwardSteps := genForwardSteps c1G
    backwardSteps := genBackwardSteps c1G
    currentStepIndex := 5
    mode := .backward
    pending := [("out", 1), ("s2", 1), ("s1", 1), ("x", 4)] }

/-- C1 witness: stepping the `s1` backward step adds its contribution
`2·x·u = 4` into the entry of `x`, which already holds 4 from the other
consumer `s2`, yielding the sum 8. -/
theorem claim1_witness :
    (Engine.stepForward ctx0 c1E).1.pending
      = accGrads c1E.pending
          (backwardLocal c1E.graph c1N ((alget c1E.pending c1N.id).getD 0)) ∧
    (alget (Engine.stepForward ctx0 c1E).1.pending "x").getD 0 = 8 := by
  have h := claim1_pending_accumulates ctx0 c1E 5 rfl (by decide) (by decide) c1N rfl
  refine ⟨h.1, ?_⟩
  rw [h.2 "x"]
  have h1 : (alget c1E.pending "x").getD 0 = 4 := rfl
  have h2 : sumKey (backwardLocal c1E.graph c1N ((alget c1E.pending c1N.id).getD 0)) "x"
      = 2 * 2 * 1 + 0 := rfl
  rw [h1, h2]
  norm_num

/-! ## C4: jumpToStep versus fresh reset and replay -/

/-- Single-input-node graph for the C4 counterexample. -/
def c4G : Graph :=
  { nodes := [⟨"x", .input, "x", 3, 0, [], 0, false⟩]
    executionOrder := ["x"]
    outputNode := some "x" }

/-- Engine on `c4G` after running both of its steps (forward `x`,
backward `x`), so both step records carry rendered equations. -/
def c4E : Engine := Engine.stepN ctx0 (Engine.init c4G) 2

/-- C4 counterexample: `jumpToStep(0)` replays only step 0 but never
regenerates the step records, so the backward record keeps its
previously rendered equation, while a fresh `reset()` followed by one
`stepForward()` leaves the backward record\x27s equation empty — the two
states differ. -/
theorem claim4_counterexample :
    ((Engine.getState (Engine.jumpToStep ctx0 c4E 0)).steps.getD 1 stepDefault).equation
      = "∂L/∂x = " ∧
    ((Engine.getState (Engine.stepN ctx0 (Engine.resetE c4E) 1)).steps.getD 1
        stepDefault).equation = "" ∧
    Engine.getState (Engine.jumpToStep ctx0 c4E 0)
      ≠ Engine.getState (Engine.stepN ctx0 (Engine.resetE c4E) 1) := by
  refine ⟨by decide, by decide, ?_⟩
  intro hc
  exact absurd (congrArg (fun st => (st.steps.getD 1 stepDefault).equation) hc)
    (by decide)

theorem getD_app_lt {α : Type} (l1 l2 : List α) (d : α) (k : Nat)
    (hk : k < l1.length) : (l1 ++ l2).getD k d = l1.getD k d := by
  induction l1 generalizing k with
  | nil => exact absurd hk (by simp)
  | cons a t ih =>
    cases k with
    | zero => rfl
    | succ m => exact ih m (by simpa using hk)

theorem getD_app_ge {α : Type} (l1 l2 : List α) (d : α) (k : Nat)
    (hk : l1.length ≤ k) : (l1 ++ l2).getD k d = l2.getD (k - l1.length) d := by
  induction l1 generalizing k with
  | nil => simp
  | cons a t ih =>
    cases k with
    | zero => exact absurd hk (by simp)
    | succ m =>
      show (t ++ l2).getD m d = _
      rw [ih m (by simpa using hk)]
      have : m + 1 - (a :: t).length = m - t.length := by
        simp [Nat.succ_sub_succ]
      rw [this]

theorem getD_set_self {α : Type} (l : List α) (k : Nat) (a d : α)
    (hk : k < l.length) : (l.set k a).getD k d = a := by
  induction l generalizing k with
  | nil => exact absurd hk (by simp)
  | cons b t ih =>
    cases k with
    | zero => rfl
    | succ m => exact ih m (by simpa using hk)

theorem getD_set_ne {α : Type} (l : List α) (k i : Nat) (a d : α)
    (h : i ≠ k) : (l.set k a).getD i d = l.getD i d := by
  induction l generalizing k i with
  | nil => rfl
  | cons b t ih =>
    cases k with
    | zero =>
      cases i with
      | zero => exact absurd rfl h
      | succ j => rfl
    | succ m =>
      cases i with
      | zero => rfl
      | succ j => exact ih m j (fun hc => h (by rw [hc]))

/-- The step-record fields that `stepForward` never writes. -/
def SkelEq (s t : StepInfo) : Prop :=
  s.mode = t.mode ∧ s.nodeId = t.nodeId ∧ s.nodeName = t.nodeName ∧
  s.activeNodeIds = t.activeNodeIds ∧ s.activeEdgeIds = t.activeEdgeIds

/-- The step-record fields that `stepForward` rewrites when the step
executes. -/
def ContentEq (s t : StepInfo) : Prop :=
  s.equation = t.equation ∧ s.values = t.values

instance (s t : StepInfo) : Decidable (SkelEq s t) := by
  rw [SkelEq]
  infer_instance

instance (s t : StepInfo) : Decidable (ContentEq s t) := by
  rw [ContentEq]
  infer_instance

/-- The node after `node.forward(); node.isActive = true`. -/
def fwdNode (C : Ctx) (g : Graph) (n : Node) : Node :=
  { n with value := (computeVal C g n).1
           maxIndex := (computeVal C g n).2
           isActive := true }

/-- The forward step record after execution. -/
def fwdRecord (C : Ctx) (g : Graph) (n : Node) (s0 : StepInfo) : StepInfo :=
  { s0 with
    equation := getForwardEquation C (g.updNode (fwdNode C g n)) (fwdNode C g n)
    values := ((fwdNode C g n).inputs.map
        (fun j => (nameOf (g.updNode (fwdNode C g n)) j,
                   valueOf (g.updNode (fwdNode C g n)) j))).foldl
      (fun m kv => alset m kv.1 kv.2) [("output", (fwdNode C g n).value)] }

/-- The pending map after one backward accumulation round. -/
def bwdPend (g : Graph) (n : Node) (p0 : List (String × ℚ)) :
    List (String × ℚ) :=
  accGrads p0 (backwardLocal g n ((alget p0 n.id).getD 0))

/-- The backward step record after execution. -/
def bwdRecord (C : Ctx) (g : Graph) (n : Node) (p1 : List (String × ℚ))
    (s0 : StepInfo) : StepInfo :=
  { s0 with
    equation := getBackwardEquation C (g.updNode { n with isActive := true })
      { n with isActive := true }
    values := (({ n with isActive := true } : Node).inputs.map
        (fun j => ("grad_" ++ nameOf (g.updNode { n with isActive := true }) j,
                   (alget p1 j).getD 0))).foldl
      (fun m kv => alset m kv.1 kv.2)
      [("gradient", ({ n with isActive := true } : Node).gradient),
       ("value", ({ n with isActive := true } : Node).value)] }

/-- Closed form of a forward-phase `stepForward` on a found node. -/
theorem stepForward_fwd_char (C : Ctx) (e : Engine) (k : Nat)
    (hidx : e.currentStepIndex = (k : Int) - 1)
    (hkF : k < e.forwardSteps.length)
    (n : Node)
    (hn : e.graph.find ((e.forwardSteps.getD k stepDefault).nodeId) = some n) :
    (Engine.stepForward C e).1
      = { e with currentStepIndex := (k : Int)
                 mode := (e.forwardSteps.getD k stepDefault).mode
                 graph := e.graph.updNode (fwdNode C e.graph n)
                 forwardSteps := e.forwardSteps.set k
                   (fwdRecord C e.graph n (e.forwardSteps.getD k stepDefault)) } := by
  have hguard : ¬ (e.currentStepIndex ≥ (e.allSteps.length : Int) - 1) := by
    rw [hidx, Engine.allSteps, List.length_append]
    push_cast
    omega
  have htn : (e.currentStepIndex + 1).toNat = k := by
    rw [hidx]
    omega
  have hcur : e.allSteps.getD k stepDefault = e.forwardSteps.getD k stepDefault := by
    rw [Engine.allSteps, getD_app_lt _ _ _ _ hkF]
  simp only [Engine.stepForward]
  rw [if_neg hguard]
  simp only [htn, hcur]
  rw [if_pos hkF, hn, hidx]
  show ({ e with currentStepIndex := (k : Int) - 1 + 1
                 mode := _, graph := _, forwardSteps := _ } : Engine) = _
  have h1 : (k : Int) - 1 + 1 = (k : Int) := by ring
  rw [h1]
  rfl

/-- Closed form of a backward-phase `stepForward` on a found node. -/
theorem stepForward_bwd_char (C : Ctx) (e : Engine) (k : Nat)
    (hidx : e.currentStepIndex = (k : Int) - 1)
    (hkF : e.forwardSteps.length ≤ k)
    (hkT : k < e.forwardSteps.length + e.backwardSteps.length)
    (n : Node)
    (hn : e.graph.find ((e.backwardSteps.getD (k - e.forwardSteps.length)
        stepDefault).nodeId) = some n) :
    (Engine.stepForward C e).1
      = { e with currentStepIndex := (k : Int)
                 mode := (e.backwardSteps.getD (k - e.forwardSteps.length)
                   stepDefault).mode
                 graph := e.graph.updNode { n with isActive := true }
                 pending := bwdPend e.graph n
                   (if k - e.forwardSteps.length = 0 then [(n.id, 1)] else e.pending)
                 backwardSteps := e.backwardSteps.set (k - e.forwardSteps.length)
                   (bwdRecord C e.graph n
                     (bwdPend e.graph n
                       (if k - e.forwardSteps.length = 0 then [(n.id, 1)]
                        else e.pending))
                     (e.backwardSteps.getD (k - e.forwardSteps.length)
                       stepDefault)) } := by
  have hguard : ¬ (e.currentStepIndex ≥ (e.allSteps.length : Int) - 1) := by
    rw [hidx, Engine.allSteps, List.length_append]
    push_cast
    omega
  have htn : (e.currentStepIndex + 1).toNat = k := by
    rw [hidx]
    omega
  have hcur : e.allSteps.getD k stepDefault
      = e.backwardSteps.getD (k - e.forwardSteps.length) stepDefault := by
    rw [Engine.allSteps, getD_app_ge _ _ _ _ hkF]
  have hnotF : ¬ (k < e.forwardSteps.length) := by omega
  simp only [Engine.stepForward]
  rw [if_neg hguard]
  simp only [htn, hcur]
  rw [if_neg hnotF, hn, hidx]
  show ({ e with currentStepIndex := (k : Int) - 1 + 1
                 mode := _, graph := _, pending := _, backwardSteps := _ } : Engine) = _
  have h1 : (k : Int) - 1 + 1 = (k : Int) := by ring
  rw [h1]
  rfl

theorem getD_map {α β : Type} (f : α → β) (l : List α) (i : Nat) (da : α)
    (db : β) (hi : i < l.length) : (l.map f).getD i db = f (l.getD i da) := by
  induction l generalizing i with
  | nil => exact absurd hi (by simp)
  | cons a t ih =>
    cases i with
    | zero => rfl
    | succ m => exact ih m (by simpa using hi)

/-- `reset` never changes a display name. -/
theorem resetG_nameOf (g : Graph) (j : String) :
    nameOf (Graph.resetG g) j = nameOf g j := by
  rw [nameOf, nameOf, resetG_find]
  cases g.find j <;> rfl

theorem getExplanation_resetG (g : Graph) (n : Node) :
    getExplanation (Graph.resetG g) { n with gradient := 0, isActive := false }
      = getExplanation g n := by
  rcases n with ⟨i, op, nm, v, gr, ins, mi, ac⟩
  cases op <;> simp [getExplanation, inName, resetG_nameOf]

theorem genForwardStep_resetG (g : Graph) (i : String) :
    genForwardStep (Graph.resetG g) i = genForwardStep g i := by
  rw [genForwardStep, genForwardStep, resetG_find]
  cases hf : g.find i with
  | none => rfl
  | some n => simp [getExplanation_resetG g n]

theorem genBackwardStep_resetG (g : Graph) (i : String) :
    genBackwardStep (Graph.resetG g) i = genBackwardStep g i := by
  rw [genBackwardStep, genBackwardStep, resetG_find]
  cases hf : g.find i with
  | none => rfl
  | some n => simp [getExplanation_resetG g n]

theorem genForwardSteps_resetG (g : Graph) :
    genForwardSteps (Graph.resetG g) = genForwardSteps g := by
  rw [genForwardSteps, genForwardSteps]
  exact List.map_congr_left (fun i _ => genForwardStep_resetG g i)

theorem genBackwardSteps_resetG (g : Graph) :
    genBackwardSteps (Graph.resetG g) = genBackwardSteps g := by
  rw [genBackwardSteps, genBackwardSteps]
  exact List.map_congr_left (fun i _ => genBackwardStep_resetG g i)

theorem genForwardStep_nodeId {g : Graph} {i : String} {n : Node}
    (hf : g.find i = some n) : (genForwardStep g i).nodeId = i := by
  rw [genForwardStep, hf]
  exact find_id hf

theorem genBackwardStep_nodeId {g : Graph} {i : String} {n : Node}
    (hf : g.find i = some n) : (genBackwardStep g i).nodeId = i := by
  rw [genBackwardStep, hf]
  exact find_id hf

/-- Simulation relation between the replaying engine of `jumpToStep`
(left) and the freshly reset engine (right) after `k` of the replayed
steps, over the base graph `g0` (the shared graph before the reset). -/
structure Rel (g0 : Graph) (k : Nat) (a b : Engine) : Prop where
  hgraph : a.graph = b.graph
  hga : a.graph.executionOrder = g0.executionOrder
  hgskel : ∀ j, (a.graph.find j).map nodeSkel = (g0.find j).map nodeSkel
  hia : a.currentStepIndex = (k : Int) - 1
  hib : b.currentStepIndex = (k : Int) - 1
  hfla : a.forwardSteps.length = g0.executionOrder.length
  hflb : b.forwardSteps.length = g0.executionOrder.length
  hbla : a.backwardSteps.length = g0.executionOrder.length
  hblb : b.backwardSteps.length = g0.executionOrder.length
  hfskel : ∀ i, i < g0.executionOrder.length →
    SkelEq (a.forwardSteps.getD i stepDefault) (b.forwardSteps.getD i stepDefault)
  hbskel : ∀ i, i < g0.executionOrder.length →
    SkelEq (a.backwardSteps.getD i stepDefault) (b.backwardSteps.getD i stepDefault)
  hfnode : ∀ i, i < g0.executionOrder.length →
    (a.forwardSteps.getD i stepDefault).nodeId = g0.executionOrder.getD i ""
  hbnode : ∀ i, i < g0.executionOrder.length →
    (a.backwardSteps.getD i stepDefault).nodeId
      = g0.executionOrder.reverse.getD i ""
  hfdone : ∀ i, i < k → i < g0.executionOrder.length →
    ContentEq (a.forwardSteps.getD i stepDefault) (b.forwardSteps.getD i stepDefault)
  hbdone : ∀ i, i + g0.executionOrder.length < k → i < g0.executionOrder.length →
    ContentEq (a.backwardSteps.getD i stepDefault) (b.backwardSteps.getD i stepDefault)
  hmode : 1 ≤ k → a.mode = b.mode
  hpend : g0.executionOrder.length < k → a.pending = b.pending

/-- The reset parts of `jumpToStep` and the full `reset()` start in the
simulation relation at step 0. -/
theorem rel_init (e : Engine)
    (hfound : ∀ i ∈ e.graph.executionOrder, ((e.graph).find i).isSome)
    (hfa : e.forwardSteps.length = e.graph.executionOrder.length)
    (hba : e.backwardSteps.length = e.graph.executionOrder.length)
    (hfs : ∀ i, i < e.graph.executionOrder.length →
      SkelEq (e.forwardSteps.getD i stepDefault)
        ((genForwardSteps e.graph).getD i stepDefault))
    (hbs : ∀ i, i < e.graph.executionOrder.length →
      SkelEq (e.backwardSteps.getD i stepDefault)
        ((genBackwardSteps e.graph).getD i stepDefault)) :
    Rel e.graph 0
      { e with currentStepIndex := -1, graph := Graph.resetG e.graph }
      (Engine.resetE e) := by
  have hlenF : (genForwardSteps e.graph).length = e.graph.executionOrder.length := by
    rw [genForwardSteps, List.length_map]
  have hlenB : (genBackwardSteps e.graph).length = e.graph.executionOrder.length := by
    rw [genBackwardSteps, List.length_map, List.length_reverse]
  have hresF : (Engine.resetE e).forwardSteps = genForwardSteps e.graph := by
    rw [Engine.resetE]
    exact genForwardSteps_resetG e.graph
  have hresB : (Engine.resetE e).backwardSteps = genBackwardSteps e.graph := by
    rw [Engine.resetE]
    exact genBackwardSteps_resetG e.graph
  refine ⟨rfl, rfl, resetG_skel e.graph, by norm_num,
    by show (-1 : Int) = ((0 : Nat) : Int) - 1; norm_num, hfa, ?_, hba, ?_,
    ?_, ?_, ?_, ?_, ?_, ?_, ?_, ?_⟩
  · rw [hresF, hlenF]
  · rw [hresB, hlenB]
  · intro i hi
    rw [hresF]
    exact hfs i hi
  · intro i hi
    rw [hresB]
    exact hbs i hi
  · intro i hi
    obtain ⟨h1, h2, _⟩ := hfs i hi
    rw [h2]
    have hmem : e.graph.executionOrder.getD i "" ∈ e.graph.executionOrder :=
      getD_mem_of_lt hi
    obtain ⟨n, hn⟩ := Option.isSome_iff_exists.mp (hfound _ hmem)
    rw [genForwardSteps,
      getD_map (genForwardStep e.graph) e.graph.executionOrder i "" stepDefault hi]
    exact genForwardStep_nodeId hn
  · intro i hi
    obtain ⟨h1, h2, _⟩ := hbs i hi
    rw [h2]
    have hir : i < e.graph.executionOrder.reverse.length := by
      rw [List.length_reverse]
      exact hi
    have hmem : e.graph.executionOrder.reverse.getD i "" ∈ e.graph.executionOrder := by
      rw [← List.mem_reverse]
      exact getD_mem_of_lt hir
    obtain ⟨n, hn⟩ := Option.isSome_iff_exists.mp (hfound _ hmem)
    rw [genBackwardSteps,
      getD_map (genBackwardStep e.graph) e.graph.executionOrder.reverse i "" stepDefault hir]
    exact genBackwardStep_nodeId hn
  · intro i hi
    exact absurd hi (by omega)
  · intro i hi
    exact absurd hi (by omega)
  · intro h
    exact absurd h (by omega)
  · intro h
    exact absurd h (by omega)

theorem isSome_of_map {α β : Type} {f : α → β} {x : Option α}
    (h : (x.map f).isSome = true) : x.isSome = true := by
  cases x
  · cases h
  · rfl

theorem updNode_order (g : Graph) (n : Node) :
    (g.updNode n).executionOrder = g.executionOrder := rfl

theorem updNode_skel (g : Graph) {i : String} {n : Node} (hfind : g.find i = some n)
    (m : Node) (hid : m.id = i) (hms : nodeSkel m = nodeSkel n) (j : String) :
    ((g.updNode m).find j).map nodeSkel = (g.find j).map nodeSkel := by
  by_cases hj : j = i
  · subst hj
    rw [find_updNode_self g m ⟨n, hfind⟩ hid, hfind]
    simp [hms]
  · rw [find_updNode_ne g m (by rw [hid]; exact hj)]

/-- One replayed step preserves the simulation relation. -/
theorem rel_step (C : Ctx) (g0 : Graph) (k : Nat) (a b : Engine)
    (hfound : ∀ i ∈ g0.executionOrder, (g0.find i).isSome)
    (hR : Rel g0 k a b) (hk : k < 2 * g0.executionOrder.length) :
    Rel g0 (k + 1) (Engine.stepForward C a).1 (Engine.stepForward C b).1 := by
  obtain ⟨hgraph, hga, hgskel, hia, hib, hfla, hflb, hbla, hblb, hfskel, hbskel,
    hfnode, hbnode, hfdone, hbdone, hmode, hpend⟩ := hR
  have hki : ((k + 1 : Nat) : Int) - 1 = (k : Int) := by
    push_cast
    ring
  by_cases hcase : k < g0.executionOrder.length
  · -- forward-phase step
    have hska := hfskel k hcase
    have hmem : g0.executionOrder.getD k "" ∈ g0.executionOrder :=
      getD_mem_of_lt hcase
    obtain ⟨n0, hn0⟩ := Option.isSome_iff_exists.mp (hfound _ hmem)
    have hg0j : g0.find ((a.forwardSteps.getD k stepDefault).nodeId) = some n0 := by
      rw [hfnode k hcase]
      exact hn0
    have hsome : ((a.graph.find ((a.forwardSteps.getD k stepDefault).nodeId)).map
        nodeSkel).isSome := by
      rw [hgskel, hg0j]
      rfl
    obtain ⟨n, hn⟩ := Option.isSome_iff_exists.mp (isSome_of_map hsome)
    have hnid : n.id = (a.forwardSteps.getD k stepDefault).nodeId := find_id hn
    have hnb : b.graph.find ((b.forwardSteps.getD k stepDefault).nodeId) = some n := by
      rw [← hska.2.1, ← hgraph]
      exact hn
    have hka : k < a.forwardSteps.length := by
      rw [hfla]
      exact hcase
    have hkb : k < b.forwardSteps.length := by
      rw [hflb]
      exact hcase
    have hca := stepForward_fwd_char C a k hia hka n hn
    have hcb := stepForward_fwd_char C b k hib hkb n hnb
    rw [hca, hcb]
    refine ⟨?_, ?_, ?_, hki.symm, hki.symm, ?_, ?_, hbla, hblb, ?_, hbskel,
      ?_, hbnode, ?_, ?_, ?_, ?_⟩
    · show a.graph.updNode (fwdNode C a.graph n) = b.graph.updNode (fwdNode C b.graph n)
      rw [hgraph]
    · show (a.graph.updNode (fwdNode C a.graph n)).executionOrder = _
      rw [updNode_order, hga]
    · intro j
      show ((a.graph.updNode (fwdNode C a.graph n)).find j).map nodeSkel = _
      rw [updNode_skel a.graph hn (fwdNode C a.graph n) hnid rfl j, hgskel]
    · show (a.forwardSteps.set k (fwdRecord C a.graph n
        (a.forwardSteps.getD k stepDefault))).length = _
      rw [List.length_set, hfla]
    · show (b.forwardSteps.set k (fwdRecord C b.graph n
        (b.forwardSteps.getD k stepDefault))).length = _
      rw [List.length_set, hflb]
    · intro i hi
      by_cases hik : i = k
      · subst hik
        show SkelEq ((a.forwardSteps.set i _).getD i stepDefault)
          ((b.forwardSteps.set i _).getD i stepDefault)
        rw [getD_set_self _ _ _ _ hka, getD_set_self _ _ _ _ hkb]
        exact (hfskel i hi)
      · show SkelEq ((a.forwardSteps.set k _).getD i stepDefault)
          ((b.forwardSteps.set k _).getD i stepDefault)
        rw [getD_set_ne _ _ _ _ _ hik, getD_set_ne _ _ _ _ _ hik]
        exact hfskel i hi
    · intro i hi
      by_cases hik : i = k
      · subst hik
        show ((a.forwardSteps.set i _).getD i stepDefault).nodeId = _
        rw [getD_set_self _ _ _ _ hka]
        exact hfnode i hi
      · show ((a.forwardSteps.set k _).getD i stepDefault).nodeId = _
        rw [getD_set_ne _ _ _ _ _ hik]
        exact hfnode i hi
    · intro i hi hiL
      by_cases hik : i = k
      · subst hik
        show ContentEq ((a.forwardSteps.set i _).getD i stepDefault)
          ((b.forwardSteps.set i _).getD i stepDefault)
        rw [getD_set_self _ _ _ _ hka, getD_set_self _ _ _ _ hkb]
        constructor
        · show getForwardEquation C (a.graph.updNode (fwdNode C a.graph n))
            (fwdNode C a.graph n) = _
          rw [hgraph]
          rfl
        · show ((fwdNode C a.graph n).inputs.map
              (fun j => (nameOf (a.graph.updNode (fwdNode C a.graph n)) j,
                valueOf (a.graph.updNode (fwdNode C a.graph n)) j))).foldl
              (fun m kv => alset m kv.1 kv.2)
              [("output", (fwdNode C a.graph n).value)] = _
          rw [hgraph]
          rfl
      · have hik2 : i < k := by omega
        show ContentEq ((a.forwardSteps.set k _).getD i stepDefault)
          ((b.forwardSteps.set k _).getD i stepDefault)
        rw [getD_set_ne _ _ _ _ _ hik, getD_set_ne _ _ _ _ _ hik]
        exact hfdone i hik2 hiL
    · intro i hi hiL
      exact absurd hi (by omega)
    · intro _
      show (a.forwardSteps.getD k stepDefault).mode
        = (b.forwardSteps.getD k stepDefault).mode
      exact hska.1
    · intro h
      exact absurd h (by omega)
  · -- backward-phase step
    have hL : g0.executionOrder.length ≤ k := by omega
    have hbidx : k - g0.executionOrder.length < g0.executionOrder.length := by omega
    have hsbk := hbskel (k - g0.executionOrder.length) hbidx
    have hirev : k - g0.executionOrder.length < g0.executionOrder.reverse.length := by
      rw [List.length_reverse]
      exact hbidx
    have hmem : g0.executionOrder.reverse.getD (k - g0.executionOrder.length) ""
        ∈ g0.executionOrder := by
      rw [← List.mem_reverse]
      exact getD_mem_of_lt hirev
    obtain ⟨n0, hn0⟩ := Option.isSome_iff_exists.mp (hfound _ hmem)
    have hg0j : g0.find ((a.backwardSteps.getD (k - g0.executionOrder.length)
        stepDefault).nodeId) = some n0 := by
      rw [hbnode _ hbidx]
      exact hn0
    have hsome : ((a.graph.find ((a.backwardSteps.getD
        (k - g0.executionOrder.length) stepDefault).nodeId)).map nodeSkel).isSome := by
      rw [hgskel, hg0j]
      rfl
    obtain ⟨n, hn⟩ := Option.isSome_iff_exists.mp (isSome_of_map hsome)
    have hnid : n.id = (a.backwardSteps.getD (k - g0.executionOrder.length)
        stepDefault).nodeId := find_id hn
    have hna : a.graph.find ((a.backwardSteps.getD (k - a.forwardSteps.length)
        stepDefault).nodeId) = some n := by
      rw [hfla]
      exact hn
    have hnbJ : b.graph.find ((b.backwardSteps.getD (k - b.forwardSteps.length)
        stepDefault).nodeId) = some n := by
      rw [hflb, ← hsbk.2.1, ← hgraph]
      exact hn
    have hkFa : a.forwardSteps.length ≤ k := by
      rw [hfla]
      exact hL
    have hkFb : b.forwardSteps.length ≤ k := by
      rw [hflb]
      exact hL
    have hkTa : k < a.forwardSteps.length + a.backwardSteps.length := by
      rw [hfla, hbla]
      omega
    have hkTb : k < b.forwardSteps.length + b.backwardSteps.length := by
      rw [hflb, hblb]
      omega
    have hca := stepForward_bwd_char C a k hia hkFa hkTa n hna
    have hcb := stepForward_bwd_char C b k hib hkFb hkTb n hnbJ
    have hsina : k - a.forwardSteps.length = k - g0.executionOrder.length := by
      rw [hfla]
    have hsinb : k - b.forwardSteps.length = k - g0.executionOrder.length := by
      rw [hflb]
    rw [hsina] at hca
    rw [hsinb] at hcb
    have hpeq : bwdPend a.graph n
        (if k - g0.executionOrder.length = 0 then [(n.id, 1)] else a.pending)
        = bwdPend b.graph n
          (if k - g0.executionOrder.length = 0 then [(n.id, 1)] else b.pending) := by
      by_cases h0 : k - g0.executionOrder.length = 0
      · rw [if_pos h0, if_pos h0, bwdPend, bwdPend, hgraph]
      · rw [if_neg h0, if_neg h0, bwdPend, bwdPend, hgraph,
          hpend (by omega)]
    rw [hca, hcb]
    refine ⟨?_, ?_, ?_, hki.symm, hki.symm, hfla, hflb, ?_, ?_, hfskel, ?_,
      hfnode, ?_, ?_, ?_, ?_, ?_⟩
    · show a.graph.updNode { n with isActive := true }
        = b.graph.updNode { n with isActive := true }
      rw [hgraph]
    · show (a.graph.updNode { n with isActive := true }).executionOrder = _
      rw [updNode_order, hga]
    · intro j
      show ((a.graph.updNode { n with isActive := true }).find j).map nodeSkel = _
      rw [updNode_skel a.graph hn { n with isActive := true } hnid rfl j, hgskel]
    · show (a.backwardSteps.set (k - g0.executionOrder.length) _).length = _
      rw [List.length_set, hbla]
    · show (b.backwardSteps.set (k - g0.executionOrder.length) _).length = _
      rw [List.length_set, hblb]
    · intro i hi
      have hia2 : k - g0.executionOrder.length < a.backwardSteps.length := by
        rw [hbla]
        exact hbidx
      have hib2 : k - g0.executionOrder.length < b.backwardSteps.length := by
        rw [hblb]
        exact hbidx
      by_cases hik : i = k - g0.executionOrder.length
      · rw [hik]
        show SkelEq ((a.backwardSteps.set (k - g0.executionOrder.length) _).getD
            (k - g0.executionOrder.length) stepDefault)
          ((b.backwardSteps.set (k - g0.executionOrder.length) _).getD
            (k - g0.executionOrder.length) stepDefault)
        rw [getD_set_self _ _ _ _ hia2, getD_set_self _ _ _ _ hib2]
        exact hbskel _ hbidx
      · show SkelEq ((a.backwardSteps.set (k - g0.executionOrder.length) _).getD
          i stepDefault) ((b.backwardSteps.set (k - g0.executionOrder.length) _).getD
          i stepDefault)
        rw [getD_set_ne _ _ _ _ _ hik, getD_set_ne _ _ _ _ _ hik]
        exact hbskel i hi
    · intro i hi
      have hia2 : k - g0.executionOrder.length < a.backwardSteps.length := by
        rw [hbla]
        exact hbidx
      by_cases hik : i = k - g0.executionOrder.length
      · rw [hik]
        show ((a.backwardSteps.set (k - g0.executionOrder.length) _).getD
            (k - g0.executionOrder.length) stepDefault).nodeId = _
        rw [getD_set_self _ _ _ _ hia2]
        exact hbnode _ hbidx
      · show ((a.backwardSteps.set (k - g0.executionOrder.length) _).getD
          i stepDefault).nodeId = _
        rw [getD_set_ne _ _ _ _ _ hik]
        exact hbnode i hi
    · intro i hi hiL
      have hik : i < k := by omega
      exact hfdone i hik hiL
    · intro i hi hiL
      have hia2 : k - g0.executionOrder.length < a.backwardSteps.length := by
        rw [hbla]
        exact hbidx
      have hib2 : k - g0.executionOrder.length < b.backwardSteps.length := by
        rw [hblb]
        exact hbidx
      by_cases hik : i = k - g0.executionOrder.length
      · rw [hik]
        show ContentEq ((a.backwardSteps.set (k - g0.executionOrder.length) _).getD
            (k - g0.executionOrder.length) stepDefault)
          ((b.backwardSteps.set (k - g0.executionOrder.length) _).getD
            (k - g0.executionOrder.length) stepDefault)
        rw [getD_set_self _ _ _ _ hia2, getD_set_self _ _ _ _ hib2]
        constructor
        · show getBackwardEquation C (a.graph.updNode { n with isActive := true })
            { n with isActive := true } = _
          rw [hgraph]
          rfl
        · show (({ n with isActive := true } : Node).inputs.map
              (fun j => ("grad_" ++ nameOf (a.graph.updNode
                  { n with isActive := true }) j,
                (alget (bwdPend a.graph n
                  (if k - g0.executionOrder.length = 0 then [(n.id, 1)]
                   else a.pending)) j).getD 0))).foldl
              (fun m kv => alset m kv.1 kv.2)
              [("gradient", ({ n with isActive := true } : Node).gradient),
               ("value", ({ n with isActive := true } : Node).value)] = _
          rw [hpeq, hgraph]
          rfl
      · have hik2 : i + g0.executionOrder.length < k := by omega
        show ContentEq ((a.backwardSteps.set (k - g0.executionOrder.length) _).getD
          i stepDefault) ((b.backwardSteps.set (k - g0.executionOrder.length) _).getD
          i stepDefault)
        rw [getD_set_ne _ _ _ _ _ hik, getD_set_ne _ _ _ _ _ hik]
        exact hbdone i hik2 hiL
    · intro _
      show (a.backwardSteps.getD (k - g0.executionOrder.length) stepDefault).mode
        = (b.backwardSteps.getD (k - g0.executionOrder.length) stepDefault).mode
      exact hsbk.1
    · intro _
      show bwdPend a.graph n _ = bwdPend b.graph n _
      exact hpeq

theorem rel_stepN (C : Ctx) (g0 : Graph)
    (hfound : ∀ i ∈ g0.executionOrder, (g0.find i).isSome) :
    ∀ m k a b, Rel g0 k a b → k + m ≤ 2 * g0.executionOrder.length →
      Rel g0 (k + m) (Engine.stepN C a m) (Engine.stepN C b m) := by
  intro m
  induction m with
  | zero =>
    intro k a b h _
    exact h
  | succ m ih =>
    intro k a b h hle
    have h1 := rel_step C g0 k a b hfound h (by omega)
    have h2 := ih (k + 1) (Engine.stepForward C a).1 (Engine.stepForward C b).1
      h1 (by omega)
    have he : k + (m + 1) = (k + 1) + m := by omega
    rw [he]
    exact h2

/-- C4 (amended): for a valid index n, `jumpToStep(n)` agrees with a
fresh `reset()` followed by n+1 `stepForward()` calls on the mode, the
cursor, the step count, the active-node set, the completion flag, and
on the equations and values of every step up to n — but NOT on the
whole step list: `jumpToStep` never regenerates the step records, so
records after n (and the explanation texts) may retain stale content
from earlier runs, which is what the counterexample exhibits. -/
theorem claim4_jump_replay_amended (C : Ctx) (e : Engine) (n : Nat)
    (hfound : ∀ i ∈ e.graph.executionOrder, ((e.graph).find i).isSome)
    (hfa : e.forwardSteps.length = e.graph.executionOrder.length)
    (hba : e.backwardSteps.length = e.graph.executionOrder.length)
    (hfs : ∀ i, i < e.graph.executionOrder.length →
      SkelEq (e.forwardSteps.getD i stepDefault)
        ((genForwardSteps e.graph).getD i stepDefault))
    (hbs : ∀ i, i < e.graph.executionOrder.length →
      SkelEq (e.backwardSteps.getD i stepDefault)
        ((genBackwardSteps e.graph).getD i stepDefault))
    (hn : n < 2 * e.graph.executionOrder.length) :
    (Engine.getState (Engine.jumpToStep C e (n : Int))).mode
      = (Engine.getState (Engine.stepN C (Engine.resetE e) (n + 1))).mode ∧
    (Engine.getState (Engine.jumpToStep C e (n : Int))).currentStep
      = (Engine.getState (Engine.stepN C (Engine.resetE e) (n + 1))).currentStep ∧
    (Engine.getState (Engine.jumpToStep C e (n : Int))).totalSteps
      = (Engine.getState (Engine.stepN C (Engine.resetE e) (n + 1))).totalSteps ∧
    (Engine.getState (Engine.jumpToStep C e (n : Int))).activeNodes
      = (Engine.getState (Engine.stepN C (Engine.resetE e) (n + 1))).activeNodes ∧
    (Engine.getState (Engine.jumpToStep C e (n : Int))).isComplete
      = (Engine.getState (Engine.stepN C (Engine.resetE e) (n + 1))).isComplete ∧
    ∀ k, k ≤ n →
      SkelEq ((Engine.getState (Engine.jumpToStep C e (n : Int))).steps.getD
          k stepDefault)
        ((Engine.getState (Engine.stepN C (Engine.resetE e) (n + 1))).steps.getD
          k stepDefault) ∧
      ContentEq ((Engine.getState (Engine.jumpToStep C e (n : Int))).steps.getD
          k stepDefault)
        ((Engine.getState (Engine.stepN C (Engine.resetE e) (n + 1))).steps.getD
          k stepDefault) := by
  have hlen : e.allSteps.length = 2 * e.graph.executionOrder.length := by
    rw [Engine.allSteps, List.length_append, hfa, hba]
    omega
  have hg : ¬ ((n : Int) < 0 ∨ (n : Int) ≥ (e.allSteps.length : Int)) := by
    rw [hlen]
    push_cast
    omega
  have hjump : Engine.jumpToStep C e (n : Int)
      = Engine.stepN C
          { e with currentStepIndex := -1, graph := Graph.resetG e.graph }
          (n + 1) := by
    rw [Engine.jumpToStep, if_neg hg]
    have htn : ((n : Int)).toNat = n := by omega
    rw [htn]
  rw [hjump]
  have hrel0 := rel_init e hfound hfa hba hfs hbs
  have hrelN := rel_stepN C e.graph hfound (n + 1) 0
    { e with currentStepIndex := -1, graph := Graph.resetG e.graph }
    (Engine.resetE e) hrel0 (by omega)
  rw [Nat.zero_add] at hrelN
  obtain ⟨hgraph, hga, hgskel, hia, hib, hfla, hflb, hbla, hblb, hfskel, hbskel,
    hfnode, hbnode, hfdone, hbdone, hmode, hpend⟩ := hrelN
  set eJ := Engine.stepN C
    { e with currentStepIndex := -1, graph := Graph.resetG e.graph } (n + 1) with heJ
  set eR := Engine.stepN C (Engine.resetE e) (n + 1) with heR
  have hki : ((n + 1 : Nat) : Int) - 1 = (n : Int) := by
    push_cast
    ring
  have hidxJ : eJ.currentStepIndex = (n : Int) := by
    rw [hia, hki]
  have hidxR : eR.currentStepIndex = (n : Int) := by
    rw [hib, hki]
  have hlenJ : eJ.allSteps.length = 2 * e.graph.executionOrder.length := by
    rw [Engine.allSteps, List.length_append, hfla, hbla]
    omega
  have hlenR : eR.allSteps.length = 2 * e.graph.executionOrder.length := by
    rw [Engine.allSteps, List.length_append, hflb, hblb]
    omega
  have hsteps : ∀ k, k ≤ n →
      SkelEq (eJ.allSteps.getD k stepDefault) (eR.allSteps.getD k stepDefault) ∧
      ContentEq (eJ.allSteps.getD k stepDefault) (eR.allSteps.getD k stepDefault) := by
    intro k hk
    by_cases hkL : k < e.graph.executionOrder.length
    · have hkJ : k < eJ.forwardSteps.length := by
        rw [hfla]
        exact hkL
      have hkR : k < eR.forwardSteps.length := by
        rw [hflb]
        exact hkL
      rw [Engine.allSteps, Engine.allSteps, getD_app_lt _ _ _ _ hkJ,
        getD_app_lt _ _ _ _ hkR]
      exact ⟨hfskel k hkL, hfdone k (by omega) hkL⟩
    · have hgeJ : eJ.forwardSteps.length ≤ k := by
        rw [hfla]
        omega
      have hgeR : eR.forwardSteps.length ≤ k := by
        rw [hflb]
        omega
      have hkL2 : k - e.graph.executionOrder.length < e.graph.executionOrder.length := by
        omega
      rw [Engine.allSteps, Engine.allSteps, getD_app_ge _ _ _ _ hgeJ,
        getD_app_ge _ _ _ _ hgeR, hfla, hflb]
      exact ⟨hbskel _ hkL2, hbdone _ (by omega) hkL2⟩
  refine ⟨hmode (by omega), ?_, ?_, ?_, ?_, hsteps⟩
  · show eJ.currentStepIndex = eR.currentStepIndex
    rw [hidxJ, hidxR]
  · show eJ.allSteps.length = eR.allSteps.length
    rw [hlenJ, hlenR]
  · show (if eJ.currentStepIndex ≥ 0 then
        (eJ.allSteps.getD eJ.currentStepIndex.toNat stepDefault).activeNodeIds
      else []) = (if eR.currentStepIndex ≥ 0 then
        (eR.allSteps.getD eR.currentStepIndex.toNat stepDefault).activeNodeIds
      else [])
    rw [hidxJ, hidxR]
    have h0 : ((n : Int)) ≥ 0 := by positivity
    rw [if_pos h0, if_pos h0]
    have htn : ((n : Int)).toNat = n := by omega
    rw [htn]
    exact (hsteps n le_rfl).1.2.2.2.1
  · show decide (eJ.currentStepIndex = (eJ.allSteps.length : Int) - 1)
      = decide (eR.currentStepIndex = (eR.allSteps.length : Int) - 1)
    rw [hidxJ, hidxR, hlenJ, hlenR]

/-- C4 witness: the amended agreement applied to the one-node graph at
index n = 1 on a freshly initialised engine, whose step arrays match
the generated skeletons by computation. -/
theorem claim4_witness :
    (Engine.getState (Engine.jumpToStep ctx0 (Engine.init c4G) ((1 : Nat) : Int))).mode
      = (Engine.getState (Engine.stepN ctx0 (Engine.resetE (Engine.init c4G)) 2)).mode ∧
    (Engine.getState (Engine.jumpToStep ctx0 (Engine.init c4G) ((1 : Nat) : Int))).currentStep
      = (Engine.getState (Engine.stepN ctx0 (Engine.resetE (Engine.init c4G)) 2)).currentStep ∧
    (Engine.getState (Engine.jumpToStep ctx0 (Engine.init c4G) ((1 : Nat) : Int))).isComplete
      = (Engine.getState (Engine.stepN ctx0 (Engine.resetE (Engine.init c4G)) 2)).isComplete ∧
    ContentEq ((Engine.getState (Engine.jumpToStep ctx0 (Engine.init c4G)
        ((1 : Nat) : Int))).steps.getD 1 stepDefault)
      ((Engine.getState (Engine.stepN ctx0 (Engine.resetE (Engine.init c4G)) 2)).steps.getD
        1 stepDefault) := by
  have h := claim4_jump_replay_amended ctx0 (Engine.init c4G) 1
    (by decide) (by decide) (by decide) (by decide) (by decide) (by decide)
  exact ⟨h.1, h.2.1, h.2.2.2.2.1, (h.2.2.2.2.2 1 le_rfl).2⟩

end Backprop
